import Mathlib

/-!
Verification of the dice-roller parser and evaluator (src/cursor.py,
src/dice_roller.py).

The Python source is shallowly embedded: the input string is a `List Char`,
the cursor is a position into it, fallible operations return `Except pyError`,
and the mutually recursive accept/expect parser functions are driven by an
explicit fuel argument (the source recursion consumes at least one input
character per nesting level, so the generous bound `4 * length + 8` used by
`expect_line` can never be exhausted on any input; no theorem below depends
on fuel running out).

Python `int` is embedded as `Int` (arbitrary precision, as in CPython), and
Python's true division `a / b` on ints, used by the Divide operator as
`int(sum(l) / sum(r))`, is embedded exactly: CPython's `long_true_divide`
produces the IEEE-754 binary64 value nearest to the exact rational `a / b`
(ties to even), raising `ZeroDivisionError` for `b = 0` and `OverflowError`
when the rounded result is out of double range; `int(...)` then truncates
toward zero.
-/

/-- Membership test of Python `string.whitespace`-style characters as used by
`str.isspace` for the ASCII range (space, tab, newline, carriage return,
vertical tab, form feed).  Python also treats some non-ASCII code points as
whitespace; no claim below depends on those. -/
def pyIsSpace (c : Char) : Bool :=
  c.toNat = 32 || c.toNat = 9 || c.toNat = 10 || c.toNat = 13 ||
  c.toNat = 11 || c.toNat = 12

/-- The set `identifier_chars` of cursor.py: ASCII letters, digits and
underscore. -/
def isIdentChar (c : Char) : Bool :=
  (48 ≤ c.toNat && c.toNat ≤ 57) || (65 ≤ c.toNat && c.toNat ≤ 90) ||
  (97 ≤ c.toNat && c.toNat ≤ 122) || c.toNat = 95

/-- Character class `[0-9]` of the anchored regex `[1-9][0-9]*`. -/
def isDigitCh (c : Char) : Bool :=
  48 ≤ c.toNat && c.toNat ≤ 57

/-- Character class `[1-9]` of the anchored regex `[1-9][0-9]*`. -/
def isDigit19 (c : Char) : Bool :=
  49 ≤ c.toNat && c.toNat ≤ 57

/-- The decimal digit character for `n < 10` (used to embed Python decimal
rendering of integers, as in f-strings). -/
def digitChar10 (n : Nat) : Char :=
  match n with
  | 0 => '0' | 1 => '1' | 2 => '2' | 3 => '3' | 4 => '4'
  | 5 => '5' | 6 => '6' | 7 => '7' | 8 => '8' | _ => '9'

/-- Fuel-driven decimal rendering of a natural number, most significant digit
first.  The fuel `n + 1` in `natDigits` always suffices since `n / 10 < n`
for `n ≥ 10`. -/
def natDigitsAux : Nat → Nat → List Char
  | 0, _ => []
  | Nat.succ f, n =>
    if n < 10 then [digitChar10 n]
    else natDigitsAux f (n / 10) ++ [digitChar10 (n % 10)]

/-- Decimal rendering of a natural number, e.g. `natDigits 25 = ['2','5']`.
Embeds Python `str(n)` / f-string interpolation for `n ≥ 0`. -/
def natDigits (n : Nat) : List Char :=
  natDigitsAux (n + 1) n

/-- Decimal rendering of a Python int, embedding f-string interpolation. -/
def intRepr (i : Int) : List Char :=
  if i < 0 then '-' :: natDigits i.natAbs else natDigits i.natAbs

/-- Numeric value of a decimal digit string; embeds Python `int(text)` on the
strings matched by the regex `[1-9][0-9]*`. -/
def digitsVal (ds : List Char) : Nat :=
  ds.foldl (fun acc ch => 10 * acc + (ch.toNat - 48)) 0

/-- Runtime faults of the embedded program.  `parserError` carries the source
text, the message and the offset, as the `ParserError` class does; the other
constructors stand for the Python exceptions of the same names.  `outOfFuel`
is an artifact of the fuel-driven embedding of the recursive descent and is
unreachable for the fuel bounds used below. -/
inductive pyError where
  | parserError (source : List Char) (msg : List Char) (position : Nat)
  | indexError
  | zeroDivisionError
  | overflowError
  | attributeError
  | typeError
  | outOfFuel
deriving DecidableEq, Repr

/-- Cursor state of cursor.py: the immutable contents and a position. -/
structure cursor where
  contents : List Char
  pos : Nat
deriving DecidableEq, Repr

/-- Python slice `contents[a:b]` for `0 ≤ a ≤ b` (clamping at the end of the
string, as Python slicing does). -/
def pySlice (t : List Char) (a b : Nat) : List Char :=
  (t.drop a).take (b - a)

/-- One step of `__advance_to_non_whitespace`; fuel-driven embedding of the
while loop. -/
def skipWsAux : Nat → List Char → Nat → Nat
  | 0, _, p => p
  | Nat.succ f, t, p =>
    match t.get? p with
    | some c => if pyIsSpace c then skipWsAux f t (p + 1) else p
    | none => p

/-- Embeds `__advance_to_non_whitespace`: advance the position while it rests
on a whitespace character and is not at end of input. -/
def skipWs (t : List Char) (p : Nat) : Nat :=
  skipWsAux (t.length + 1) t p

/-- Apply whitespace skipping to a cursor. -/
def advanceWs (c : cursor) : cursor :=
  ⟨c.contents, skipWs c.contents c.pos⟩

/-- Embeds `cursor.__init__`: store the contents and skip leading
whitespace. -/
def mkCursor (t : List Char) : cursor :=
  advanceWs ⟨t, 0⟩

/-- Embeds `cursor.accept_keyword`.  The source compares the slice
`contents[pos:end_pos]` with the keyword and, on a match, reads
`contents[end_pos]` WITHOUT a bounds check, so a keyword match that ends
exactly at end of input raises `IndexError` (`contents[end_pos]` with
`end_pos = len(contents)`). -/
def accept_keyword (c : cursor) (keyword : List Char) :
    Except pyError (Bool × cursor) :=
  let endPos := c.pos + keyword.length
  if pySlice c.contents c.pos endPos = keyword then
    match c.contents.get? endPos with
    | none => .error .indexError
    | some nextChar =>
      if isIdentChar nextChar then .ok (false, c)
      else .ok (true, advanceWs ⟨c.contents, endPos⟩)
  else
    .ok (false, c)

/-- Embeds `cursor.accept_punctuation`: exact slice match, no boundary check,
advance and skip whitespace on success. -/
def accept_punctuation (c : cursor) (s : List Char) : Bool × cursor :=
  let endPos := c.pos + s.length
  if pySlice c.contents c.pos endPos = s then
    (true, advanceWs ⟨c.contents, endPos⟩)
  else
    (false, c)

/-- Embeds `cursor.expect_punctuation`: on failure raise a parser error whose
message includes the offending character (or the marker text at end of
input). -/
def expect_punctuation (c : cursor) (s : List Char) :
    Except pyError cursor :=
  match accept_punctuation c s with
  | (true, c1) => .ok c1
  | (false, _) =>
    let gotChar : List Char :=
      match c.contents.get? c.pos with
      | some ch => [ch]
      | none => "<eof>".data
    .error (.parserError c.contents
      ("expected punctuation ".data ++ s ++ ", got ".data ++ gotChar)
      c.pos)

/-- Embeds `accept_regex_str(int_regex)`: an anchored match of `[1-9][0-9]*`
at the current position (greedy, as `re.match` is), returning the matched
text and the cursor advanced past it with whitespace skipped. -/
def accept_int_regex (c : cursor) : Option (List Char × cursor) :=
  match c.contents.get? c.pos with
  | some ch =>
    if isDigit19 ch then
      let ds := ch :: (c.contents.drop (c.pos + 1)).takeWhile isDigitCh
      some (ds, advanceWs ⟨c.contents, c.pos + ds.length⟩)
    else none
  | none => none

/-- Embeds `expect_regex_str(int_regex, "integer")`: raise a positioned parser
error when the anchored integer match fails. -/
def expect_int_regex (c : cursor) : Except pyError (List Char × cursor) :=
  match accept_int_regex c with
  | some r => .ok r
  | none => .error (.parserError c.contents "expected integer".data c.pos)

/-- Position of the most significant bit plus one (number of binary digits)
of a positive natural; fuel-driven so that it reduces in the kernel. -/
def nbitsAux : Nat → Nat → Nat
  | 0, _ => 0
  | Nat.succ f, n => if n = 0 then 0 else nbitsAux f (n / 2) + 1

/-- Number of binary digits of `n` (`0` for `0`). -/
def nbits (n : Nat) : Nat :=
  nbitsAux (n + 1) n

/-- Round the exact rational `num / den` (`den ≠ 0`) to the nearest natural,
ties to even: the rounding used by IEEE-754 round-to-nearest. -/
def roundHalfEven (num den : Nat) : Nat :=
  let q := num / den
  let r := num % den
  if 2 * r < den then q
  else if den < 2 * r then q + 1
  else if q % 2 = 0 then q else q + 1

/-- Whether `2 ^ d ≤ A / B` exactly, for an integer exponent `d`. -/
def twoPowLe (A B : Nat) (d : Int) : Bool :=
  if 0 ≤ d then decide (B * 2 ^ d.toNat ≤ A) else decide (B ≤ A * 2 ^ (-d).toNat)

/-- The unique `e` with `2 ^ e ≤ A / B < 2 ^ (e + 1)`, for `A, B ≥ 1`,
computed from the binary lengths of `A` and `B`. -/
def divExponent (A B : Nat) : Int :=
  let d : Int := (nbits A : Int) - (nbits B : Int)
  if twoPowLe A B d then d else d - 1

/-- The IEEE-754 binary64 value nearest to the exact rational `A / B`
(`A, B ≥ 1`), as a pair `(k, v)` denoting `k * 2 ^ v`, or `OverflowError`
when that value is out of double range.  This is the result CPython's
`long_true_divide` computes for `A / B` (correctly rounded true division,
ties to even). -/
def pyDivDouble (A B : Nat) : Except pyError (Nat × Int) :=
  let e := divExponent A B
  if e < -1022 then
    .ok (roundHalfEven (A * 2 ^ 1074) B, -1074)
  else
    let shift : Int := 52 - e
    let k :=
      if 0 ≤ shift then roundHalfEven (A * 2 ^ shift.toNat) B
      else roundHalfEven A (B * 2 ^ (-shift).toNat)
    if 0 ≤ e - 52 ∧ 2 ^ 1024 ≤ k * 2 ^ (e - 52).toNat then
      .error .overflowError
    else
      .ok (k, e - 52)

/-- Truncation toward zero of the nonnegative double `k * 2 ^ v`. -/
def truncMag (k : Nat) (v : Int) : Nat :=
  if 0 ≤ v then k * 2 ^ v.toNat else k / 2 ^ (-v).toNat

/-- Embeds the Python expression `int(a / b)` for ints `a`, `b`: true division
(correctly rounded to binary64) followed by `int`'s truncation toward zero.
Raises `ZeroDivisionError` for `b = 0` and `OverflowError` when the quotient
is out of double range. -/
def pyIntTrueDiv (a b : Int) : Except pyError Int :=
  if b = 0 then .error .zeroDivisionError
  else if a = 0 then .ok 0
  else
    match pyDivDouble a.natAbs b.natAbs with
    | .error e => .error e
    | .ok (k, v) =>
      let m : Int := truncMag k v
      .ok (if (a < 0) = (b < 0) then m else -m)

/-- Unary aggregate operators of dice_roller.py (`accept_operator`).  The
source stores the behavior as a closure plus a title string; both are a pure
function of this tag (the counted forms carry the parsed integer). -/
inductive uOp where
  | umax
  | umin
  | usum
  | utop (n : Int)
  | ubottom (n : Int)
  | ucount (n : Int)
deriving DecidableEq, Repr

/-- Binary combine operators of dice_roller.py (`accept_roll`). -/
inductive bOp where
  | bSum
  | bSubtract
  | bMultiply
  | bDivide
  | bConcat
deriving DecidableEq, Repr

/-- AST nodes of dice_roller.py.  `roller_binary_op_nolhs` embeds the source
value `roller_binary_op(None, rhs, op, op_str)`: `accept_roll` passes its
possibly-`None` `op1` straight into the `roller_binary_op` constructor, so a
tree whose left operand is `None` is a representable (and, as proved below,
reachable) value; it is split into its own constructor here so that the type
stays a plain inductive. -/
inductive rollerNode where
  | roller_constant (c : Int)
  | roller_die (count die : Int)
  | roller_unary_operator (inner : rollerNode) (op : uOp)
  | roller_binary_op (lhs rhs : rollerNode) (op : bOp)
  | roller_binary_op_nolhs (rhs : rollerNode) (op : bOp)
deriving DecidableEq, Repr

/-- Result tree of a roll (`roll_result`): the value list, the audit header
and the child results. -/
inductive roll_result where
  | mk (values : List Int) (header : List Char) (inner : List roll_result)

/-- The `values` property of `roll_result`. -/
def roll_result.values : roll_result → List Int
  | .mk v _ _ => v

/-- The header (audit title) of a `roll_result`. -/
def roll_result.header : roll_result → List Char
  | .mk _ h _ => h

/-- The child results of a `roll_result`. -/
def roll_result.inner : roll_result → List roll_result
  | .mk _ _ i => i

/-- Embeds Python `sum(s)` on a list of ints. -/
def pySum (s : List Int) : Int :=
  s.foldl (· + ·) 0

/-- Embeds the Python slice `s[-n:]` (for any int `n`; the parser only builds
`n ≥ 1`).  For `-n < 0` Python starts `max(len + (-n), 0)` from the end;
for `-n = 0` the slice is the whole list. -/
def pySliceFromNeg (n : Int) (s : List Int) : List Int :=
  if n ≤ 0 then s.drop (-n).toNat
  else s.drop (s.length - n.toNat)

/-- Embeds the Python slice `s[0:n]` (for any int `n`; the parser only builds
`n ≥ 1`). -/
def pySliceTo (n : Int) (s : List Int) : List Int :=
  if 0 ≤ n then s.take n.toNat
  else s.take (s.length - (-n).toNat)

/-- Embeds Python `sorted(l)` on ints: ascending, stable (stability is
unobservable on integer values). -/
def pySorted (l : List Int) : List Int :=
  List.insertionSort (· ≤ ·) l

/-- The operator closures built in `accept_operator`, applied to the operand's
value list.  `max(*s)` / `min(*s)` raise `TypeError` on an empty argument
list (`max()` with no arguments); the source special-cases the singleton
because `max(*[x])` would also be a `TypeError` on a bare int. -/
def applyUOp : uOp → List Int → Except pyError (List Int)
  | .umax, [] => .error .typeError
  | .umax, [x] => .ok [x]
  | .umax, x :: y :: t => .ok [(y :: t).foldl max x]
  | .umin, [] => .error .typeError
  | .umin, [x] => .ok [x]
  | .umin, x :: y :: t => .ok [(y :: t).foldl min x]
  | .usum, s => .ok [pySum s]
  | .utop n, s => .ok (pySliceFromNeg n s)
  | .ubottom n, s => .ok (pySliceTo n s)
  | .ucount n, s => .ok [((s.filter (fun i => i == n)).length : Int)]

/-- The audit titles assigned in `accept_operator` (`op_name`). -/
def uOpTitle : uOp → List Char
  | .umax => "max".data
  | .umin => "min".data
  | .usum => "sum".data
  | .utop n => "top ".data ++ intRepr n
  | .ubottom n => "bottom ".data ++ intRepr n
  | .ucount n => "count ".data ++ intRepr n

/-- The operator closures built in `accept_roll`.  `int(x)` on an int is the
identity, so Sum/Subtract/Multiply are exact; Divide is
`int(sum(l) / sum(r))` with Python float true division (`pyIntTrueDiv`);
Concat is `sorted(l + r)`. -/
def applyBOp : bOp → List Int → List Int → Except pyError (List Int)
  | .bSum, l, r => .ok [pySum l + pySum r]
  | .bSubtract, l, r => .ok [pySum l - pySum r]
  | .bMultiply, l, r => .ok [pySum l * pySum r]
  | .bDivide, l, r =>
    match pyIntTrueDiv (pySum l) (pySum r) with
    | .error e => .error e
    | .ok q => .ok [q]
  | .bConcat, l, r => .ok (pySorted (l ++ r))

/-- The audit titles assigned in `accept_roll` (`op_str`). -/
def bOpTitle : bOp → List Char
  | .bSum => "Sum".data
  | .bSubtract => "Subtract".data
  | .bMultiply => "Multiply".data
  | .bDivide => "Divide".data
  | .bConcat => "Concat".data

/-- A randomness source: argument `k` is the index of the call to
`random.randint` (the source samples a process-wide generator; indexing the
calls makes every possible behavior of that generator an instance), and the
other two arguments are `randint`'s inclusive bounds. -/
def rngT : Type :=
  Nat → Int → Int → Int

/-- Embeds the `roll()` methods of the node classes.  The second argument
threads the index of the next `randint` call.  A `roller_die` with count `c`
performs `c` calls in order and sorts the samples ascending; its header is
the f-string rendering of count, separator and size.  A binary node with a
`None` left operand faults: `None.roll()` is an `AttributeError`. -/
def rollerNode.rollWith (rng : rngT) :
    rollerNode → Nat → Except pyError (roll_result × Nat)
  | .roller_constant c, k => .ok (.mk [c] "const".data [], k)
  | .roller_die cnt die, k =>
    let l := (List.range cnt.toNat).map (fun i => rng (k + i) 1 die)
    .ok (.mk (pySorted l) (intRepr cnt ++ 'd' :: intRepr die) [], k + cnt.toNat)
  | .roller_unary_operator inner op, k =>
    match rollWith rng inner k with
    | .error e => .error e
    | .ok (r, k1) =>
      match applyUOp op r.values with
      | .error e => .error e
      | .ok res => .ok (.mk res (uOpTitle op) [r], k1)
  | .roller_binary_op lhs rhs op, k =>
    match rollWith rng lhs k with
    | .error e => .error e
    | .ok (lr, k1) =>
      match rollWith rng rhs k1 with
      | .error e => .error e
      | .ok (rr, k2) =>
        match applyBOp op lr.values rr.values with
        | .error e => .error e
        | .ok res => .ok (.mk res (bOpTitle op) [lr, rr], k2)
  | .roller_binary_op_nolhs _ _, _ => .error .attributeError

/-- The three mutually recursive grammar productions of `roller_cursor`. -/
inductive prodKind where
  | valueK
  | operatorK
  | rollK
deriving DecidableEq, Repr

/-- Embeds the `rollback_if_false` decorator of cursor.py: when the wrapped
method returns a falsy result (`None`), restore the cursor to its position at
entry; exceptions pass through untouched. -/
def wrapRollback (c : cursor)
    (r : Except pyError (Option rollerNode × cursor)) :
    Except pyError (Option rollerNode × cursor) :=
  match r with
  | .ok (none, _) => .ok (none, c)
  | other => other

/-- Build the node `roller_binary_op(op1, op2, ...)` of `accept_roll`: the
left operand is whatever `accept_operator` returned, including `None`. -/
def mkBinary (op1 : Option rollerNode) (op2 : rollerNode) (op : bOp) :
    rollerNode :=
  match op1 with
  | some l => .roller_binary_op l op2 op
  | none => .roller_binary_op_nolhs op2 op

/-- Embeds the three mutually recursive productions `accept_value`,
`accept_operator` and `accept_roll` of `roller_cursor`, each wrapped in
`rollback_if_false`.  The fuel argument drives the mutual recursion; every
recursive call strictly follows the source's call graph.  The `expect_roll`
calls made inside `accept_roll` after a binary-operator token are inlined
(they raise a positioned parser error when the recursive `accept_roll`
returns no match). -/
def parserAccept : Nat → prodKind → cursor → Except pyError (Option rollerNode × cursor)
  | 0, _, _ => .error .outOfFuel
  | Nat.succ f, .valueK, c =>
    wrapRollback c
      (match accept_punctuation c "(".data with
       | (true, c1) =>
         match parserAccept f .rollK c1 with
         | .error e => .error e
         | .ok (roll, c2) =>
           match expect_punctuation c2 ")".data with
           | .error e => .error e
           | .ok c3 => .ok (roll, c3)
       | (false, _) =>
         match accept_int_regex c with
         | none => .ok (none, c)
         | some (countStr, c1) =>
           let count : Int := digitsVal countStr
           match accept_punctuation c1 "d".data with
           | (true, c2) =>
             match expect_int_regex c2 with
             | .error e => .error e
             | .ok (dieStr, c3) =>
               .ok (some (.roller_die count (digitsVal dieStr)), c3)
           | (false, _) => .ok (some (.roller_constant count), c1))
  | Nat.succ f, .operatorK, c =>
    wrapRollback c
      (match accept_keyword c "max".data with
       | .error e => .error e
       | .ok (true, c1) =>
         (match parserAccept f .valueK c1 with
          | .error e => .error e
          | .ok (none, c2) => .ok (none, c2)
          | .ok (some roller, c2) =>
            .ok (some (.roller_unary_operator roller .umax), c2))
       | .ok (false, _) =>
       match accept_keyword c "min".data with
       | .error e => .error e
       | .ok (true, c1) =>
         (match parserAccept f .valueK c1 with
          | .error e => .error e
          | .ok (none, c2) => .ok (none, c2)
          | .ok (some roller, c2) =>
            .ok (some (.roller_unary_operator roller .umin), c2))
       | .ok (false, _) =>
       match accept_keyword c "sum".data with
       | .error e => .error e
       | .ok (true, c1) =>
         (match parserAccept f .valueK c1 with
          | .error e => .error e
          | .ok (none, c2) => .ok (none, c2)
          | .ok (some roller, c2) =>
            .ok (some (.roller_unary_operator roller .usum), c2))
       | .ok (false, _) =>
       match accept_keyword c "top".data with
       | .error e => .error e
       | .ok (true, c1) =>
         (match expect_int_regex c1 with
          | .error e => .error e
          | .ok (countStr, c2) =>
            match parserAccept f .valueK c2 with
            | .error e => .error e
            | .ok (none, c3) => .ok (none, c3)
            | .ok (some roller, c3) =>
              .ok (some (.roller_unary_operator roller
                    (.utop (digitsVal countStr))), c3))
       | .ok (false, _) =>
       match accept_keyword c "bottom".data with
       | .error e => .error e
       | .ok (true, c1) =>
         (match expect_int_regex c1 with
          | .error e => .error e
          | .ok (countStr, c2) =>
            match parserAccept f .valueK c2 with
            | .error e => .error e
            | .ok (none, c3) => .ok (none, c3)
            | .ok (some roller, c3) =>
              .ok (some (.roller_unary_operator roller
                    (.ubottom (digitsVal countStr))), c3))
       | .ok (false, _) =>
       match accept_keyword c "count".data with
       | .error e => .error e
       | .ok (true, c1) =>
         (match expect_int_regex c1 with
          | .error e => .error e
          | .ok (countStr, c2) =>
            match parserAccept f .valueK c2 with
            | .error e => .error e
            | .ok (none, c3) => .ok (none, c3)
            | .ok (some roller, c3) =>
              .ok (some (.roller_unary_operator roller
                    (.ucount (digitsVal countStr))), c3))
       | .ok (false, _) => parserAccept f .valueK c)
  | Nat.succ f, .rollK, c =>
    wrapRollback c
      (match parserAccept f .operatorK c with
       | .error e => .error e
       | .ok (op1, c1) =>
         let expectRollAt : cursor → Except pyError (rollerNode × cursor) :=
           fun c2 =>
             match parserAccept f .rollK c2 with
             | .error e => .error e
             | .ok (none, c3) =>
               .error (.parserError c3.contents "expected a roll".data c3.pos)
             | .ok (some nd, c3) => .ok (nd, c3)
         match accept_punctuation c1 "+".data with
         | (true, c2) =>
           (match expectRollAt c2 with
            | .error e => .error e
            | .ok (op2, c3) => .ok (some (mkBinary op1 op2 .bSum), c3))
         | (false, _) =>
         match accept_punctuation c1 "-".data with
         | (true, c2) =>
           (match expectRollAt c2 with
            | .error e => .error e
            | .ok (op2, c3) => .ok (some (mkBinary op1 op2 .bSubtract), c3))
         | (false, _) =>
         match accept_punctuation c1 "*".data with
         | (true, c2) =>
           (match expectRollAt c2 with
            | .error e => .error e
            | .ok (op2, c3) => .ok (some (mkBinary op1 op2 .bMultiply), c3))
         | (false, _) =>
         match accept_punctuation c1 "/".data with
         | (true, c2) =>
           (match expectRollAt c2 with
            | .error e => .error e
            | .ok (op2, c3) => .ok (some (mkBinary op1 op2 .bDivide), c3))
         | (false, _) =>
         match accept_punctuation c1 ",".data with
         | (true, c2) =>
           (match expectRollAt c2 with
            | .error e => .error e
            | .ok (op2, c3) => .ok (some (mkBinary op1 op2 .bConcat), c3))
         | (false, _) => .ok (op1, c1))

/-- The production `accept_value` at a given fuel. -/
def accept_value (f : Nat) (c : cursor) :
    Except pyError (Option rollerNode × cursor) :=
  parserAccept f .valueK c

/-- The production `accept_operator` at a given fuel. -/
def accept_operator (f : Nat) (c : cursor) :
    Except pyError (Option rollerNode × cursor) :=
  parserAccept f .operatorK c

/-- The production `accept_roll` at a given fuel. -/
def accept_roll (f : Nat) (c : cursor) :
    Except pyError (Option rollerNode × cursor) :=
  parserAccept f .rollK c

/-- Embeds `roller_cursor.expect_roll`: raise `expected a roll` positioned at
the (rolled-back) cursor when `accept_roll` finds no match. -/
def expect_roll (f : Nat) (c : cursor) : Except pyError (rollerNode × cursor) :=
  match parserAccept f .rollK c with
  | .error e => .error e
  | .ok (none, c1) =>
    .error (.parserError c1.contents "expected a roll".data c1.pos)
  | .ok (some nd, c1) => .ok (nd, c1)

/-- Fuel that can never be exhausted: the source recursion nests at most four
calls per consumed input character. -/
def lineFuel (t : List Char) : Nat :=
  4 * t.length + 8

/-- Embeds `roller_cursor.expect_line`: parse one roll, then require either
end of input or a `;` (everything after which is discarded via `set_eof`);
otherwise raise `Failed to parse input` at the current offset. -/
def expect_line (c : cursor) : Except pyError rollerNode :=
  match expect_roll (lineFuel c.contents) c with
  | .error e => .error e
  | .ok (nd, c1) =>
    if c1.pos = c1.contents.length then .ok nd
    else
      match accept_punctuation c1 ";".data with
      | (true, _) => .ok nd
      | (false, _) =>
        .error (.parserError c1.contents "Failed to parse input".data c1.pos)

/-- The external entry point: build a `roller_cursor` over the line (skipping
leading whitespace) and run `expect_line`. -/
def parse_line (s : String) : Except pyError rollerNode :=
  expect_line (mkCursor s.data)

/-- A concrete randomness source used in witnesses: every `randint(lo, hi)`
call returns `lo`, which is always in range. -/
def rngLow : rngT :=
  fun _ lo _ => lo

/-- Root-value observer matching the REPL: parse the line, roll once, return
the root result's value list. -/
def evalRootValues (s : String) (rng : rngT) : Except pyError (List Int) :=
  match parse_line s with
  | .error e => .error e
  | .ok nd =>
    match nd.rollWith rng 0 with
    | .error e => .error e
    | .ok (r, _) => .ok r.values

/-- Total observer matching the REPL's printed value `sum(result.values)`. -/
def evalTotal (s : String) (rng : rngT) : Except pyError Int :=
  match evalRootValues s rng with
  | .error e => .error e
  | .ok vs => .ok (pySum vs)

/-- Predicate over every result in an audit tree: the root satisfies `P` and
so does every descendant. -/
inductive AllValues (P : List Int → Prop) : roll_result → Prop where
  | mk : ∀ (v : List Int) (h : List Char) (inner : List roll_result),
      P v → (∀ r, r ∈ inner → AllValues P r) → AllValues P (.mk v h inner)

/-- The combine-operator tag selected by `accept_roll` for each punctuation
character (in the source's test order). -/
def tagOfChar (c : Char) : bOp :=
  if c = '+' then .bSum
  else if c = '-' then .bSubtract
  else if c = '*' then .bMultiply
  else if c = '/' then .bDivide
  else .bConcat

/-- Well-formedness of a unary-operator tag as built by the parser: counted
operators carry an integer of at least one (the literal grammar `[1-9][0-9]*`
admits no zero). -/
def GoodUOp : uOp → Prop
  | .utop n => 1 ≤ n
  | .ubottom n => 1 ≤ n
  | _ => True

/-- Well-formedness of a node as built by the parser: dice counts and counted
operator arguments are at least one.  A missing left operand
(`roller_binary_op_nolhs`) is reachable from the parser, so it is allowed
here; its evaluation faults before producing any result. -/
def GoodNode : rollerNode → Prop
  | .roller_constant _ => True
  | .roller_die cnt sides => 1 ≤ cnt ∧ 1 ≤ sides
  | .roller_unary_operator inner op => GoodNode inner ∧ GoodUOp op
  | .roller_binary_op lhs rhs _ => GoodNode lhs ∧ GoodNode rhs
  | .roller_binary_op_nolhs rhs _ => GoodNode rhs

/-- The root of an `AllValues` tree satisfies the predicate. -/
theorem AllValues.root {P : List Int → Prop} {r : roll_result}
    (h : AllValues P r) : P r.values := by
  cases h with
  | mk v hd inner hP _ => exact hP

/-- Folding decimal digits from an accumulator of at least one stays at least
one. -/
theorem digits_foldl_ge_one (t : List Char) :
    ∀ a : Nat, 1 ≤ a →
      1 ≤ t.foldl (fun acc ch => 10 * acc + (ch.toNat - 48)) a := by
  induction t with
  | nil => intro a ha; simpa using ha
  | cons c t ih =>
    intro a ha
    simp only [List.foldl_cons]
    exact ih _ (by omega)

/-- A successful anchored integer match has a leading `[1-9]` digit. -/
theorem accept_int_regex_shape {c : cursor} {ds : List Char} {c1 : cursor}
    (h : accept_int_regex c = some (ds, c1)) :
    ∃ hd tl, ds = hd :: tl ∧ isDigit19 hd = true := by
  unfold accept_int_regex at h
  split at h
  · rename_i ch hg
    split at h
    · rename_i h19
      simp only at h
      have h2 := (Prod.mk.injEq _ _ _ _).mp (Option.some.inj h)
      exact ⟨ch, _, h2.1.symm, h19⟩
    · exact absurd h (by simp)
  · exact absurd h (by simp)

/-- The value of a matched integer literal is at least one. -/
theorem accept_int_regex_val_pos {c : cursor} {ds : List Char} {c1 : cursor}
    (h : accept_int_regex c = some (ds, c1)) : 1 ≤ digitsVal ds := by
  obtain ⟨hd, tl, rfl, h19⟩ := accept_int_regex_shape h
  unfold digitsVal
  simp only [List.foldl_cons]
  apply digits_foldl_ge_one
  unfold isDigit19 at h19
  simp only [Bool.and_eq_true, decide_eq_true_eq] at h19
  omega

/-- The value of an expected integer literal is at least one. -/
theorem expect_int_regex_val_pos {c : cursor} {ds : List Char} {c1 : cursor}
    (h : expect_int_regex c = .ok (ds, c1)) : 1 ≤ digitsVal ds := by
  unfold expect_int_regex at h
  split at h
  · rename_i r ha
    obtain rfl : r = (ds, c1) := by simpa using h
    exact accept_int_regex_val_pos ha
  · exact absurd h (by simp)

/-- Indexing is the head of the corresponding drop. -/
theorem get?_eq_head_drop {α : Type} (l : List α) :
    ∀ n, l.get? n = (l.drop n).head? := by
  induction l with
  | nil => intro n; cases n <;> rfl
  | cons x t ih => intro n; cases n with
    | zero => rfl
    | succ m => simp only [List.get?_cons_succ, List.drop_succ_cons]; exact ih m

/-- An element produced by indexing is a member of the list. -/
theorem mem_of_get?_eq {α : Type} {l : List α} {n : Nat} {a : α}
    (h : l.get? n = some a) : a ∈ l := by
  induction l generalizing n with
  | nil => cases n <;> exact absurd h (by simp)
  | cons x t ih =>
    cases n with
    | zero => simp at h; simp [h]
    | succ m => exact List.mem_cons_of_mem _ (ih (by simpa using h))

/-- The fuel of `natDigitsAux` is irrelevant once it exceeds the argument. -/
theorem natDigitsAux_fuel (n : Nat) :
    ∀ f g, n < f → n < g → natDigitsAux f n = natDigitsAux g n := by
  induction n using Nat.strong_induction_on with
  | _ n ih =>
    intro f g hf hg
    match f, g with
    | Nat.succ f1, Nat.succ g1 =>
      by_cases h10 : n < 10
      · simp [natDigitsAux, h10]
      · simp only [natDigitsAux, if_neg h10]
        have hlt : n / 10 < n := Nat.div_lt_self (by omega) (by omega)
        rw [ih (n / 10) hlt f1 g1 (by omega) (by omega)]

/-- Unfolding of `natDigits` for small numbers. -/
theorem natDigits_lt10 {n : Nat} (h : n < 10) :
    natDigits n = [digitChar10 n] := by
  simp [natDigits, natDigitsAux, h]

/-- Unfolding of `natDigits` for numbers with at least two digits. -/
theorem natDigits_ge10 {n : Nat} (h : 10 ≤ n) :
    natDigits n = natDigits (n / 10) ++ [digitChar10 (n % 10)] := by
  have hlt : n / 10 < n := Nat.div_lt_self (by omega) (by omega)
  have h1 : natDigits n =
      if n < 10 then [digitChar10 n]
      else natDigitsAux n (n / 10) ++ [digitChar10 (n % 10)] := rfl
  rw [h1, if_neg (by omega : ¬n < 10),
    natDigitsAux_fuel (n / 10) n (n / 10 + 1) (by omega) (by omega)]
  rfl

/-- Appending a digit multiplies the value by ten and adds the digit. -/
theorem digitsVal_append_digit (l : List Char) (ch : Char) :
    digitsVal (l ++ [ch]) = 10 * digitsVal l + (ch.toNat - 48) := by
  simp [digitsVal, List.foldl_append]

/-- Decimal rendering round-trips through `int(...)`. -/
theorem digitsVal_natDigits (n : Nat) : digitsVal (natDigits n) = n := by
  induction n using Nat.strong_induction_on with
  | _ n ih =>
    by_cases h10 : n < 10
    · rw [natDigits_lt10 h10]
      have : (digitChar10 n).toNat - 48 = n := by
        interval_cases n <;> decide
      simp [digitsVal, this]
    · rw [natDigits_ge10 (by omega)]
      rw [digitsVal_append_digit]
      have hlt : n / 10 < n := Nat.div_lt_self (by omega) (by omega)
      rw [ih (n / 10) hlt]
      have hm : n % 10 < 10 := Nat.mod_lt _ (by omega)
      have : (digitChar10 (n % 10)).toNat - 48 = n % 10 := by
        set m := n % 10
        interval_cases m <;> decide
      rw [this]
      omega

/-- Every character of a decimal rendering is a decimal digit. -/
theorem natDigits_all_digits (n : Nat) :
    ∀ c ∈ natDigits n, isDigitCh c = true := by
  induction n using Nat.strong_induction_on with
  | _ n ih =>
    intro c hc
    by_cases h10 : n < 10
    · rw [natDigits_lt10 h10] at hc
      simp only [List.mem_singleton] at hc
      subst hc
      interval_cases n <;> decide
    · rw [natDigits_ge10 (by omega)] at hc
      rcases List.mem_append.mp hc with h | h
      · exact ih (n / 10) (Nat.div_lt_self (by omega) (by omega)) c h
      · simp only [List.mem_singleton] at h
        subst h
        have hm : n % 10 < 10 := Nat.mod_lt _ (by omega)
        set m := n % 10
        interval_cases m <;> decide

/-- The decimal rendering of a positive number starts with a nonzero
digit. -/
theorem natDigits_head19 (n : Nat) (hn : 1 ≤ n) :
    ∃ hd tl, natDigits n = hd :: tl ∧ isDigit19 hd = true := by
  induction n using Nat.strong_induction_on with
  | _ n ih =>
    by_cases h10 : n < 10
    · refine ⟨digitChar10 n, [], natDigits_lt10 h10, ?_⟩
      interval_cases n <;> simp_all <;> decide
    · obtain ⟨hd, tl, heq, h19⟩ :=
        ih (n / 10) (Nat.div_lt_self (by omega) (by omega))
          (Nat.one_le_div_iff (by omega) |>.mpr (by omega))
      refine ⟨hd, tl ++ [digitChar10 (n % 10)], ?_, h19⟩
      rw [natDigits_ge10 (by omega), heq]
      rfl

/-- Decimal renderings are never empty. -/
theorem natDigits_ne_nil (n : Nat) : natDigits n ≠ [] := by
  by_cases h10 : n < 10
  · rw [natDigits_lt10 h10]; simp
  · rw [natDigits_ge10 (by omega)]; simp

/-- On whitespace-free text, whitespace skipping is the identity. -/
theorem skipWs_id {t : List Char} (hws : ∀ ch ∈ t, pyIsSpace ch = false)
    (p : Nat) : skipWs t p = p := by
  have h1 : skipWs t p =
      match t.get? p with
      | some c => if pyIsSpace c then skipWsAux t.length t (p + 1) else p
      | none => p := rfl
  rcases hg : t.get? p with _ | ch
  · rw [h1, hg]
  · rw [h1, hg]
    simp [hws ch (mem_of_get?_eq hg)]

/-- On whitespace-free text, `advanceWs` is the identity. -/
theorem advanceWs_id {t : List Char} (hws : ∀ ch ∈ t, pyIsSpace ch = false)
    (p : Nat) : advanceWs ⟨t, p⟩ = ⟨t, p⟩ := by
  simp [advanceWs, skipWs_id hws]

/-- On whitespace-free text, the initial cursor rests at offset zero. -/
theorem mkCursor_id {t : List Char} (hws : ∀ ch ∈ t, pyIsSpace ch = false) :
    mkCursor t = ⟨t, 0⟩ :=
  advanceWs_id hws 0

/-- A slice starting at the cursor is a take of the corresponding drop. -/
theorem pySlice_add (t : List Char) (p m : Nat) :
    pySlice t p (p + m) = (t.drop p).take m := by
  simp [pySlice]

/-- Dropping past a known prefix leaves the rest. -/
theorem drop_of_append {t : List Char} {p : Nat} {l rest : List Char}
    (h : t.drop p = l ++ rest) : t.drop (p + l.length) = rest := by
  have h2 := congrArg (List.drop l.length) h
  rw [List.drop_drop, List.drop_left] at h2
  exact h2

/-- Single-character punctuation fails on a different head character. -/
theorem accept_punctuation_head_ne {t : List Char} {p : Nat} {sc : Char}
    (h : (t.drop p).head? ≠ some sc) :
    accept_punctuation ⟨t, p⟩ [sc] = (false, ⟨t, p⟩) := by
  have hs : pySlice t p (p + 1) ≠ [sc] := by
    rw [pySlice_add]
    rcases hd : t.drop p with _ | ⟨x, rest⟩
    · simp
    · rw [hd] at h
      simp only [List.head?_cons, ne_eq, Option.some.injEq] at h
      simp [h]
  unfold accept_punctuation
  simp only [List.length_cons, List.length_nil, Nat.zero_add]
  rw [if_neg hs]

/-- Single-character punctuation succeeds on a matching head character. -/
theorem accept_punctuation_cons {t : List Char} {p : Nat} {sc : Char}
    {rest : List Char} (h : t.drop p = sc :: rest) :
    accept_punctuation ⟨t, p⟩ [sc] = (true, advanceWs ⟨t, p + 1⟩) := by
  have hs : pySlice t p (p + 1) = [sc] := by
    rw [pySlice_add, h]
    rfl
  unfold accept_punctuation
  simp only [List.length_cons, List.length_nil, Nat.zero_add]
  rw [if_pos hs]

/-- A keyword fails (without faulting) when the head character differs from
the keyword's first character. -/
theorem accept_keyword_head_ne {t : List Char} {p : Nat} {kc : Char}
    {kw : List Char} (h : (t.drop p).head? ≠ some kc) :
    accept_keyword ⟨t, p⟩ (kc :: kw) = .ok (false, ⟨t, p⟩) := by
  have hs : pySlice t p (p + (kc :: kw).length) ≠ kc :: kw := by
    rw [pySlice_add]
    rcases hd : t.drop p with _ | ⟨x, rest⟩
    · simp
    · rw [hd] at h
      simp only [List.head?_cons, ne_eq, Option.some.injEq] at h
      simp [List.length_cons, List.take_cons, h]
  unfold accept_keyword
  rw [if_neg hs]

/-- A `takeWhile` over a prefix that satisfies the predicate, followed by a
boundary that does not, takes exactly the prefix. -/
theorem takeWhile_append_not {pr : Char → Bool} :
    ∀ (ds rest : List Char), (∀ c ∈ ds, pr c = true) →
      (∀ c, rest.head? = some c → pr c = false) →
      (ds ++ rest).takeWhile pr = ds := by
  intro ds
  induction ds with
  | nil =>
    intro rest _ hrest
    rcases rest with _ | ⟨r, rs⟩
    · rfl
    · simp [List.takeWhile, hrest r rfl]
  | cons d ds ih =>
    intro rest hds hrest
    simp only [List.cons_append, List.takeWhile]
    rw [hds d (by simp)]
    simp [ih rest (fun c hc => hds c (by simp [hc])) hrest]

/-- The anchored integer regex consumes exactly a maximal digit run. -/
theorem accept_int_regex_of_digits {t : List Char} {p : Nat} {hd : Char}
    {ds rest : List Char} (hdrop : t.drop p = (hd :: ds) ++ rest)
    (h19 : isDigit19 hd = true) (hds : ∀ c ∈ ds, isDigitCh c = true)
    (hrest : ∀ c, rest.head? = some c → isDigitCh c = false) :
    accept_int_regex ⟨t, p⟩ =
      some (hd :: ds, advanceWs ⟨t, p + (hd :: ds).length⟩) := by
  have hg : t.get? p = some hd := by
    rw [get?_eq_head_drop, hdrop]
    rfl
  have htail : t.drop (p + 1) = ds ++ rest := by
    have h2 := congrArg List.tail hdrop
    rw [List.tail_drop] at h2
    simpa using h2
  unfold accept_int_regex
  simp only [hg]
  rw [if_pos h19]
  simp only [htail, takeWhile_append_not ds rest hds hrest]

/-- A digit character differs from any non-digit character. -/
theorem isDigitCh_ne {c : Char} (h : isDigitCh c = true) (d : Char)
    (hd : isDigitCh d = false) : c ≠ d := by
  intro he
  rw [he, hd] at h
  exact Bool.false_ne_true h

/-- Every `[1-9]` character is a `[0-9]` character. -/
theorem isDigit19_isDigitCh {c : Char} (h : isDigit19 c = true) :
    isDigitCh c = true := by
  unfold isDigit19 at h
  unfold isDigitCh
  simp only [Bool.and_eq_true, decide_eq_true_eq] at h ⊢
  omega

/-- Character-list forms of the punctuation and keyword string literals. -/
theorem lparen_eq : "(".data = ['('] := rfl

/-- Character-list form of the closing parenthesis literal. -/
theorem rparen_eq : ")".data = [')'] := rfl

/-- Character-list form of the dice separator literal. -/
theorem dchar_eq : "d".data = ['d'] := rfl

/-- Character-list form of the plus literal. -/
theorem plus_eq : "+".data = ['+'] := rfl

/-- Character-list form of the minus literal. -/
theorem minus_eq : "-".data = ['-'] := rfl

/-- Character-list form of the star literal. -/
theorem star_eq : "*".data = ['*'] := rfl

/-- Character-list form of the slash literal. -/
theorem slash_eq : "/".data = ['/'] := rfl

/-- Character-list form of the comma literal. -/
theorem comma_eq : ",".data = [','] := rfl

/-- Character-list form of the `max` keyword literal. -/
theorem kw_max_eq : "max".data = 'm' :: "ax".data := rfl

/-- Character-list form of the `min` keyword literal. -/
theorem kw_min_eq : "min".data = 'm' :: "in".data := rfl

/-- Character-list form of the `sum` keyword literal. -/
theorem kw_sum_eq : "sum".data = 's' :: "um".data := rfl

/-- Character-list form of the `top` keyword literal. -/
theorem kw_top_eq : "top".data = 't' :: "op".data := rfl

/-- Character-list form of the `bottom` keyword literal. -/
theorem kw_bottom_eq : "bottom".data = 'b' :: "ottom".data := rfl

/-- Character-list form of the `count` keyword literal. -/
theorem kw_count_eq : "count".data = 'c' :: "ount".data := rfl

/-- On whitespace-free text, `accept_value` at a position holding a maximal
integer literal not followed by `d` parses a constant node and stops right
after the literal. -/
theorem parser_value_const {t : List Char}
    (hws : ∀ ch ∈ t, pyIsSpace ch = false) {p v : Nat} {rest : List Char}
    (f : Nat) (hdrop : t.drop p = natDigits v ++ rest) (hv : 1 ≤ v)
    (hrest : ∀ c, rest.head? = some c → isDigitCh c = false ∧ c ≠ 'd') :
    parserAccept (f + 1) .valueK ⟨t, p⟩ =
      .ok (some (.roller_constant (v : Int)), ⟨t, p + (natDigits v).length⟩) := by
  obtain ⟨hd, tl, hnd, h19⟩ := natDigits_head19 v hv
  have hdrop2 : t.drop p = (hd :: tl) ++ rest := by rw [hdrop, hnd]
  have hdc : isDigitCh hd = true := isDigit19_isDigitCh h19
  have hhead : (t.drop p).head? = some hd := by rw [hdrop2]; rfl
  have hparen : accept_punctuation ⟨t, p⟩ ['('] = (false, ⟨t, p⟩) := by
    apply accept_punctuation_head_ne
    rw [hhead]
    simp only [ne_eq, Option.some.injEq]
    exact isDigitCh_ne hdc '(' (by decide)
  have hscan : accept_int_regex ⟨t, p⟩ =
      some (hd :: tl, advanceWs ⟨t, p + (hd :: tl).length⟩) := by
    apply accept_int_regex_of_digits hdrop2 h19
    · intro c hc
      exact natDigits_all_digits v c (by rw [hnd]; exact List.mem_cons_of_mem _ hc)
    · intro c hc
      exact (hrest c hc).1
  have hlen : (hd :: tl).length = (natDigits v).length := by rw [hnd]
  have hdnext : (t.drop (p + (natDigits v).length)).head? ≠ some 'd' := by
    rw [drop_of_append hdrop]
    rcases hr : rest with _ | ⟨rc, rs⟩
    · simp
    · simp only [List.head?_cons, ne_eq, Option.some.injEq]
      exact (hrest rc (by rw [hr]; rfl)).2
  have hdfail : accept_punctuation ⟨t, p + (natDigits v).length⟩ ['d'] =
      (false, ⟨t, p + (natDigits v).length⟩) :=
    accept_punctuation_head_ne hdnext
  simp only [parserAccept, lparen_eq, hparen, hscan, hlen,
    advanceWs_id hws, dchar_eq, hdfail, wrapRollback]
  rw [hnd.symm]
  rw [digitsVal_natDigits]

/-- Dropping one more element past a known cons. -/
theorem drop_cons_succ {t : List Char} {p : Nat} {c : Char} {rest : List Char}
    (h : t.drop p = c :: rest) : t.drop (p + 1) = rest := by
  have h2 := congrArg List.tail h
  rw [List.tail_drop] at h2
  simpa using h2

/-- On whitespace-free text, `accept_value` at a dice term `CdS` parses a
`roller_die C S` node. -/
theorem parser_value_die {t : List Char}
    (hws : ∀ ch ∈ t, pyIsSpace ch = false) {p cv sv : Nat} {rest : List Char}
    (f : Nat)
    (hdrop : t.drop p = natDigits cv ++ 'd' :: (natDigits sv ++ rest))
    (hc : 1 ≤ cv) (hs : 1 ≤ sv)
    (hrest : ∀ c, rest.head? = some c → isDigitCh c = false) :
    parserAccept (f + 1) .valueK ⟨t, p⟩ =
      .ok (some (.roller_die (cv : Int) (sv : Int)),
        ⟨t, p + (natDigits cv).length + 1 + (natDigits sv).length⟩) := by
  obtain ⟨hd, tl, hnd, h19⟩ := natDigits_head19 cv hc
  have hdrop2 : t.drop p = (hd :: tl) ++ ('d' :: (natDigits sv ++ rest)) := by
    rw [hdrop, hnd]
  have hdc : isDigitCh hd = true := isDigit19_isDigitCh h19
  have hhead : (t.drop p).head? = some hd := by rw [hdrop2]; rfl
  have hparen : accept_punctuation ⟨t, p⟩ ['('] = (false, ⟨t, p⟩) := by
    apply accept_punctuation_head_ne
    rw [hhead]
    simp only [ne_eq, Option.some.injEq]
    exact isDigitCh_ne hdc '(' (by decide)
  have hscan : accept_int_regex ⟨t, p⟩ =
      some (hd :: tl, advanceWs ⟨t, p + (hd :: tl).length⟩) := by
    apply accept_int_regex_of_digits hdrop2 h19
    · intro c hc2
      exact natDigits_all_digits cv c (by rw [hnd]; exact List.mem_cons_of_mem _ hc2)
    · intro c hc2
      simp only [List.head?_cons, Option.some.injEq] at hc2
      subst hc2
      decide
  have hlen : (hd :: tl).length = (natDigits cv).length := by rw [hnd]
  have hdropd : t.drop (p + (natDigits cv).length) = 'd' :: (natDigits sv ++ rest) :=
    drop_of_append hdrop
  have hdok : accept_punctuation ⟨t, p + (natDigits cv).length⟩ ['d'] =
      (true, advanceWs ⟨t, p + (natDigits cv).length + 1⟩) :=
    accept_punctuation_cons hdropd
  have hdrops : t.drop (p + (natDigits cv).length + 1) = natDigits sv ++ rest :=
    drop_cons_succ hdropd
  obtain ⟨hd2, tl2, hnd2, h192⟩ := natDigits_head19 sv hs
  have hdrop3 : t.drop (p + (natDigits cv).length + 1) = (hd2 :: tl2) ++ rest := by
    rw [hdrops, hnd2]
  have hscan2 : accept_int_regex ⟨t, p + (natDigits cv).length + 1⟩ =
      some (hd2 :: tl2,
        advanceWs ⟨t, p + (natDigits cv).length + 1 + (hd2 :: tl2).length⟩) := by
    apply accept_int_regex_of_digits hdrop3 h192
    · intro c hc2
      exact natDigits_all_digits sv c (by rw [hnd2]; exact List.mem_cons_of_mem _ hc2)
    · intro c hc2
      exact hrest c hc2
  have hlen2 : (hd2 :: tl2).length = (natDigits sv).length := by rw [hnd2]
  simp only [parserAccept, lparen_eq, hparen, hscan, hlen, advanceWs_id hws,
    dchar_eq, hdok, expect_int_regex, hscan2, hlen2, wrapRollback]
  rw [hnd.symm, hnd2.symm, digitsVal_natDigits, digitsVal_natDigits]

/-- When the cursor rests on a digit, every keyword test of `accept_operator`
fails harmlessly and the production falls through to `accept_value`. -/
theorem parser_operator_digit {t : List Char} {p : Nat} (f : Nat) {hd : Char}
    (hhead : (t.drop p).head? = some hd) (hdc : isDigitCh hd = true) :
    parserAccept (f + 1) .operatorK ⟨t, p⟩ =
      wrapRollback ⟨t, p⟩ (parserAccept f .valueK ⟨t, p⟩) := by
  have kmax : accept_keyword ⟨t, p⟩ "max".data = .ok (false, ⟨t, p⟩) := by
    rw [kw_max_eq]
    exact accept_keyword_head_ne (by
      rw [hhead]
      simp only [ne_eq, Option.some.injEq]
      exact isDigitCh_ne hdc 'm' (by decide))
  have kmin : accept_keyword ⟨t, p⟩ "min".data = .ok (false, ⟨t, p⟩) := by
    rw [kw_min_eq]
    exact accept_keyword_head_ne (by
      rw [hhead]
      simp only [ne_eq, Option.some.injEq]
      exact isDigitCh_ne hdc 'm' (by decide))
  have ksum : accept_keyword ⟨t, p⟩ "sum".data = .ok (false, ⟨t, p⟩) := by
    rw [kw_sum_eq]
    exact accept_keyword_head_ne (by
      rw [hhead]
      simp only [ne_eq, Option.some.injEq]
      exact isDigitCh_ne hdc 's' (by decide))
  have ktop : accept_keyword ⟨t, p⟩ "top".data = .ok (false, ⟨t, p⟩) := by
    rw [kw_top_eq]
    exact accept_keyword_head_ne (by
      rw [hhead]
      simp only [ne_eq, Option.some.injEq]
      exact isDigitCh_ne hdc 't' (by decide))
  have kbottom : accept_keyword ⟨t, p⟩ "bottom".data = .ok (false, ⟨t, p⟩) := by
    rw [kw_bottom_eq]
    exact accept_keyword_head_ne (by
      rw [hhead]
      simp only [ne_eq, Option.some.injEq]
      exact isDigitCh_ne hdc 'b' (by decide))
  have kcount : accept_keyword ⟨t, p⟩ "count".data = .ok (false, ⟨t, p⟩) := by
    rw [kw_count_eq]
    exact accept_keyword_head_ne (by
      rw [hhead]
      simp only [ne_eq, Option.some.injEq]
      exact isDigitCh_ne hdc 'c' (by decide))
  conv_lhs => rw [parserAccept]
  rw [kmax, kmin, ksum, ktop, kbottom, kcount]

/-- When no binary-operator character follows the parsed operator,
`accept_roll` returns the operator's result unchanged. -/
theorem parser_roll_end {t : List Char} {p q : Nat} {nd : rollerNode} (f : Nat)
    (hop : parserAccept f .operatorK ⟨t, p⟩ = .ok (some nd, ⟨t, q⟩))
    (hq : ∀ c, (t.drop q).head? = some c →
      c ≠ '+' ∧ c ≠ '-' ∧ c ≠ '*' ∧ c ≠ '/' ∧ c ≠ ',') :
    parserAccept (f + 1) .rollK ⟨t, p⟩ = .ok (some nd, ⟨t, q⟩) := by
  have h1 : accept_punctuation ⟨t, q⟩ ['+'] = (false, ⟨t, q⟩) :=
    accept_punctuation_head_ne (by
      intro hcon
      rcases ho : (t.drop q).head? with _ | c
      · rw [ho] at hcon; exact Option.noConfusion hcon
      · rw [ho] at hcon
        exact (hq c ho).1 (Option.some.inj hcon))
  have h2 : accept_punctuation ⟨t, q⟩ ['-'] = (false, ⟨t, q⟩) :=
    accept_punctuation_head_ne (by
      intro hcon
      rcases ho : (t.drop q).head? with _ | c
      · rw [ho] at hcon; exact Option.noConfusion hcon
      · rw [ho] at hcon
        exact (hq c ho).2.1 (Option.some.inj hcon))
  have h3 : accept_punctuation ⟨t, q⟩ ['*'] = (false, ⟨t, q⟩) :=
    accept_punctuation_head_ne (by
      intro hcon
      rcases ho : (t.drop q).head? with _ | c
      · rw [ho] at hcon; exact Option.noConfusion hcon
      · rw [ho] at hcon
        exact (hq c ho).2.2.1 (Option.some.inj hcon))
  have h4 : accept_punctuation ⟨t, q⟩ ['/'] = (false, ⟨t, q⟩) :=
    accept_punctuation_head_ne (by
      intro hcon
      rcases ho : (t.drop q).head? with _ | c
      · rw [ho] at hcon; exact Option.noConfusion hcon
      · rw [ho] at hcon
        exact (hq c ho).2.2.2.1 (Option.some.inj hcon))
  have h5 : accept_punctuation ⟨t, q⟩ [','] = (false, ⟨t, q⟩) :=
    accept_punctuation_head_ne (by
      intro hcon
      rcases ho : (t.drop q).head? with _ | c
      · rw [ho] at hcon; exact Option.noConfusion hcon
      · rw [ho] at hcon
        exact (hq c ho).2.2.2.2 (Option.some.inj hcon))
  conv_lhs => rw [parserAccept]
  rw [hop]
  simp only [plus_eq, minus_eq, star_eq, slash_eq, comma_eq,
    h1, h2, h3, h4, h5, wrapRollback]

/-- When a binary-operator character follows the parsed operator,
`accept_roll` recurses on the right and builds the corresponding binary node
(with the possibly-`None` left operand passed through). -/
theorem parser_roll_bin {t : List Char}
    (hws : ∀ ch ∈ t, pyIsSpace ch = false) {p q : Nat}
    {op1 : Option rollerNode} {opch : Char} {rest : List Char}
    {nd2 : rollerNode} {c3 : cursor} (f : Nat)
    (hop : parserAccept f .operatorK ⟨t, p⟩ = .ok (op1, ⟨t, q⟩))
    (hdropq : t.drop q = opch :: rest)
    (hmem : opch = '+' ∨ opch = '-' ∨ opch = '*' ∨ opch = '/' ∨ opch = ',')
    (hin : parserAccept f .rollK ⟨t, q + 1⟩ = .ok (some nd2, c3)) :
    parserAccept (f + 1) .rollK ⟨t, p⟩ =
      .ok (some (mkBinary op1 nd2 (tagOfChar opch)), c3) := by
  have hhd : (t.drop q).head? = some opch := by rw [hdropq]; rfl
  have hok : accept_punctuation ⟨t, q⟩ [opch] = (true, advanceWs ⟨t, q + 1⟩) :=
    accept_punctuation_cons hdropq
  rcases hmem with rfl | rfl | rfl | rfl | rfl
  · conv_lhs => rw [parserAccept]
    rw [hop]
    simp only [plus_eq, hok, advanceWs_id hws, hin, wrapRollback]
    rfl
  · have hf1 : accept_punctuation ⟨t, q⟩ ['+'] = (false, ⟨t, q⟩) :=
      accept_punctuation_head_ne (by rw [hhd]; decide)
    conv_lhs => rw [parserAccept]
    rw [hop]
    simp only [plus_eq, minus_eq, hf1, hok, advanceWs_id hws, hin,
      wrapRollback]
    rfl
  · have hf1 : accept_punctuation ⟨t, q⟩ ['+'] = (false, ⟨t, q⟩) :=
      accept_punctuation_head_ne (by rw [hhd]; decide)
    have hf2 : accept_punctuation ⟨t, q⟩ ['-'] = (false, ⟨t, q⟩) :=
      accept_punctuation_head_ne (by rw [hhd]; decide)
    conv_lhs => rw [parserAccept]
    rw [hop]
    simp only [plus_eq, minus_eq, star_eq, hf1, hf2, hok, advanceWs_id hws,
      hin, wrapRollback]
    rfl
  · have hf1 : accept_punctuation ⟨t, q⟩ ['+'] = (false, ⟨t, q⟩) :=
      accept_punctuation_head_ne (by rw [hhd]; decide)
    have hf2 : accept_punctuation ⟨t, q⟩ ['-'] = (false, ⟨t, q⟩) :=
      accept_punctuation_head_ne (by rw [hhd]; decide)
    have hf3 : accept_punctuation ⟨t, q⟩ ['*'] = (false, ⟨t, q⟩) :=
      accept_punctuation_head_ne (by rw [hhd]; decide)
    conv_lhs => rw [parserAccept]
    rw [hop]
    simp only [plus_eq, minus_eq, star_eq, slash_eq, hf1, hf2, hf3, hok,
      advanceWs_id hws, hin, wrapRollback]
    rfl
  · have hf1 : accept_punctuation ⟨t, q⟩ ['+'] = (false, ⟨t, q⟩) :=
      accept_punctuation_head_ne (by rw [hhd]; decide)
    have hf2 : accept_punctuation ⟨t, q⟩ ['-'] = (false, ⟨t, q⟩) :=
      accept_punctuation_head_ne (by rw [hhd]; decide)
    have hf3 : accept_punctuation ⟨t, q⟩ ['*'] = (false, ⟨t, q⟩) :=
      accept_punctuation_head_ne (by rw [hhd]; decide)
    have hf4 : accept_punctuation ⟨t, q⟩ ['/'] = (false, ⟨t, q⟩) :=
      accept_punctuation_head_ne (by rw [hhd]; decide)
    conv_lhs => rw [parserAccept]
    rw [hop]
    simp only [plus_eq, minus_eq, star_eq, slash_eq, comma_eq, hf1, hf2, hf3,
      hf4, hok, advanceWs_id hws, hin, wrapRollback]
    rfl

/-- Digit characters are not whitespace. -/
theorem digit_not_space {c : Char} (h : isDigitCh c = true) :
    pyIsSpace c = false := by
  unfold isDigitCh at h
  unfold pyIsSpace
  simp only [Bool.and_eq_true, decide_eq_true_eq] at h
  simp only [Bool.or_eq_false_iff, decide_eq_false_iff_not]
  omega

/-- On whitespace-free text, `accept_operator` over an integer literal not
followed by `d` parses a constant node. -/
theorem parser_operator_const {t : List Char}
    (hws : ∀ ch ∈ t, pyIsSpace ch = false) {p v : Nat} {rest : List Char}
    (f : Nat) (hdrop : t.drop p = natDigits v ++ rest) (hv : 1 ≤ v)
    (hrest : ∀ c, rest.head? = some c → isDigitCh c = false ∧ c ≠ 'd') :
    parserAccept (f + 2) .operatorK ⟨t, p⟩ =
      .ok (some (.roller_constant (v : Int)), ⟨t, p + (natDigits v).length⟩) := by
  obtain ⟨hd, tl, hnd, h19⟩ := natDigits_head19 v hv
  have hhead : (t.drop p).head? = some hd := by rw [hdrop, hnd]; rfl
  rw [show f + 2 = (f + 1) + 1 from rfl,
    parser_operator_digit (f + 1) hhead (isDigit19_isDigitCh h19),
    parser_value_const hws f hdrop hv hrest]
  rfl

/-- On whitespace-free text, `accept_operator` over a dice term parses a
`roller_die` node. -/
theorem parser_operator_die {t : List Char}
    (hws : ∀ ch ∈ t, pyIsSpace ch = false) {p cv sv : Nat} {rest : List Char}
    (f : Nat)
    (hdrop : t.drop p = natDigits cv ++ 'd' :: (natDigits sv ++ rest))
    (hc : 1 ≤ cv) (hs : 1 ≤ sv)
    (hrest : ∀ c, rest.head? = some c → isDigitCh c = false) :
    parserAccept (f + 2) .operatorK ⟨t, p⟩ =
      .ok (some (.roller_die (cv : Int) (sv : Int)),
        ⟨t, p + (natDigits cv).length + 1 + (natDigits sv).length⟩) := by
  obtain ⟨hd, tl, hnd, h19⟩ := natDigits_head19 cv hc
  have hhead : (t.drop p).head? = some hd := by rw [hdrop, hnd]; rfl
  rw [show f + 2 = (f + 1) + 1 from rfl,
    parser_operator_digit (f + 1) hhead (isDigit19_isDigitCh h19),
    parser_value_die hws f hdrop hc hs hrest]
  rfl

/-- A parsed segment that ends exactly at end of input leaves the cursor at
the length of the text. -/
theorem pos_eq_length_of_drop_eq {t l : List Char} {p : Nat}
    (h : t.drop p = l) (hne : l ≠ []) : p + l.length = t.length := by
  have hlen := congrArg List.length h
  rw [List.length_drop] at hlen
  have hp : p ≤ t.length := by
    by_contra hgt
    rw [List.drop_eq_nil_of_le (by omega)] at h
    exact hne h.symm
  omega

/-- On whitespace-free text, `accept_roll` over a bare integer literal that
ends the input parses a constant node and stops at end of input. -/
theorem parser_roll_const_end {t : List Char}
    (hws : ∀ ch ∈ t, pyIsSpace ch = false) {p v : Nat} (f : Nat)
    (hdrop : t.drop p = natDigits v) (hv : 1 ≤ v) :
    parserAccept (f + 3) .rollK ⟨t, p⟩ =
      .ok (some (.roller_constant (v : Int)), ⟨t, t.length⟩) := by
  have hdrop2 : t.drop p = natDigits v ++ [] := by rw [hdrop]; simp
  have hop : parserAccept (f + 2) .operatorK ⟨t, p⟩ =
      .ok (some (.roller_constant (v : Int)), ⟨t, p + (natDigits v).length⟩) :=
    parser_operator_const hws f hdrop2 hv (by intro c hc; cases hc)
  have hqlen : p + (natDigits v).length = t.length :=
    pos_eq_length_of_drop_eq hdrop (natDigits_ne_nil v)
  have hq : ∀ c, (t.drop (p + (natDigits v).length)).head? = some c →
      c ≠ '+' ∧ c ≠ '-' ∧ c ≠ '*' ∧ c ≠ '/' ∧ c ≠ ',' := by
    intro c hc
    rw [drop_of_append hdrop2] at hc
    cases hc
  have := parser_roll_end (f + 2) hop hq
  rw [hqlen] at this
  exact this

/-- Turning a successful full-width `accept_roll` into `expect_line`. -/
theorem expect_line_of_roll {t : List Char} {nd : rollerNode}
    (hroll : parserAccept (lineFuel t) .rollK ⟨t, 0⟩ =
      .ok (some nd, ⟨t, t.length⟩)) :
    expect_line ⟨t, 0⟩ = .ok nd := by
  unfold expect_line expect_roll
  simp only [hroll]
  simp

/-- On whitespace-free text, `accept_roll` over a dice term that ends the
input parses a `roller_die` node and stops at end of input. -/
theorem parser_roll_die_end {t : List Char}
    (hws : ∀ ch ∈ t, pyIsSpace ch = false) {p cv sv : Nat} (f : Nat)
    (hdrop : t.drop p = natDigits cv ++ 'd' :: natDigits sv)
    (hc : 1 ≤ cv) (hs : 1 ≤ sv) :
    parserAccept (f + 3) .rollK ⟨t, p⟩ =
      .ok (some (.roller_die (cv : Int) (sv : Int)), ⟨t, t.length⟩) := by
  have hdrop2 : t.drop p = natDigits cv ++ 'd' :: (natDigits sv ++ []) := by
    rw [hdrop]; simp
  have hop : parserAccept (f + 2) .operatorK ⟨t, p⟩ =
      .ok (some (.roller_die (cv : Int) (sv : Int)),
        ⟨t, p + (natDigits cv).length + 1 + (natDigits sv).length⟩) :=
    parser_operator_die hws f hdrop2 hc hs (by intro c hc2; cases hc2)
  have hqlen : p + (natDigits cv).length + 1 + (natDigits sv).length =
      t.length := by
    have h2 := pos_eq_length_of_drop_eq hdrop (by simp [natDigits_ne_nil])
    simp only [List.length_append, List.length_cons] at h2
    omega
  have hnil : t.drop (p + (natDigits cv).length + 1 + (natDigits sv).length) =
      [] := by
    rw [hqlen]
    simp
  have hq : ∀ c,
      (t.drop (p + (natDigits cv).length + 1 + (natDigits sv).length)).head? =
        some c → c ≠ '+' ∧ c ≠ '-' ∧ c ≠ '*' ∧ c ≠ '/' ∧ c ≠ ',' := by
    intro c hc2
    rw [hnil] at hc2
    cases hc2
  have := parser_roll_end (f + 2) hop hq
  rw [hqlen] at this
  exact this

/-- C6: for all integers C, S at least 1, parsing the line "CdS" and
evaluating the resulting node under any randomness source that returns
in-range samples yields exactly C values, each in the interval from 1 to S,
sorted ascending, with the audit label "CdS". -/
theorem C6_dice_parse_eval (C S : Nat) (rng : rngT)
    (hC : 1 ≤ C) (hS : 1 ≤ S)
    (hrng : ∀ k, k < C → 1 ≤ rng k 1 (S : Int) ∧ rng k 1 (S : Int) ≤ (S : Int)) :
    expect_line (mkCursor (natDigits C ++ 'd' :: natDigits S)) =
        .ok (.roller_die (C : Int) (S : Int)) ∧
    ∃ res : roll_result,
      (rollerNode.roller_die (C : Int) (S : Int)).rollWith rng 0 =
          .ok (res, C) ∧
      res.values.length = C ∧
      (∀ v ∈ res.values, 1 ≤ v ∧ v ≤ (S : Int)) ∧
      res.values.Sorted (· ≤ ·) ∧
      res.header = natDigits C ++ 'd' :: natDigits S ∧
      res.inner = [] := by
  have hws : ∀ ch ∈ natDigits C ++ 'd' :: natDigits S, pyIsSpace ch = false := by
    intro ch hch
    rcases List.mem_append.mp hch with h | h
    · exact digit_not_space (natDigits_all_digits C ch h)
    · rcases List.mem_cons.mp h with rfl | h
      · decide
      · exact digit_not_space (natDigits_all_digits S ch h)
  constructor
  · rw [mkCursor_id hws]
    apply expect_line_of_roll
    have hfuel : lineFuel (natDigits C ++ 'd' :: natDigits S) =
        (4 * (natDigits C ++ 'd' :: natDigits S).length + 5) + 3 := by
      unfold lineFuel; omega
    rw [hfuel]
    exact parser_roll_die_end hws _ (by rw [List.drop_zero]) hC hS
  · refine ⟨.mk
      (pySorted ((List.range C).map (fun i => rng i 1 (S : Int))))
      (natDigits C ++ 'd' :: natDigits S) [], ?_, ?_, ?_, ?_, ?_, ?_⟩
    · show (match (rollerNode.roller_die (C : Int) (S : Int)) with
        | _ => _ : Except pyError (roll_result × Nat)) = _
      simp only [rollerNode.rollWith, Int.toNat_natCast, Nat.zero_add]
      have hrepr : intRepr (C : Int) ++ 'd' :: intRepr (S : Int) =
          natDigits C ++ 'd' :: natDigits S := by
        unfold intRepr
        rw [if_neg (by omega), if_neg (by omega), Int.natAbs_ofNat,
          Int.natAbs_ofNat]
      rw [hrepr]
    · show (pySorted _).length = C
      unfold pySorted
      rw [(List.perm_insertionSort _ _).length_eq]
      simp
    · intro v hv
      have hmem : v ∈ (List.range C).map (fun i => rng i 1 (S : Int)) :=
        (List.perm_insertionSort _ _).mem_iff.mp hv
      obtain ⟨i, hi, rfl⟩ := List.mem_map.mp hmem
      exact hrng i (List.mem_range.mp hi)
    · exact List.sorted_insertionSort _ _
    · rfl
    · rfl

/-- C5: binary operators group right-to-left and do not chain: a three-term
chain of operators over integer literals parses with the first literal as
left operand and the parse of the remaining chain as right operand; and
evaluating "10-5-2" yields total 7, computed as 10 - (5 - 2). -/
theorem C5_right_associative :
    (∀ (a b c : Nat) (op1 op2 : Char), 1 ≤ a → 1 ≤ b → 1 ≤ c →
      (op1 = '+' ∨ op1 = '-' ∨ op1 = '*' ∨ op1 = '/' ∨ op1 = ',') →
      (op2 = '+' ∨ op2 = '-' ∨ op2 = '*' ∨ op2 = '/' ∨ op2 = ',') →
      expect_line (mkCursor
          (natDigits a ++ op1 :: (natDigits b ++ op2 :: natDigits c))) =
        .ok (.roller_binary_op (.roller_constant (a : Int))
          (.roller_binary_op (.roller_constant (b : Int))
            (.roller_constant (c : Int)) (tagOfChar op2))
          (tagOfChar op1))) ∧
    evalTotal "10-5-2" rngLow = .ok 7 := by
  constructor
  · intro a b c op1 op2 ha hb hc hm1 hm2
    have hop1ws : pyIsSpace op1 = false := by
      rcases hm1 with rfl | rfl | rfl | rfl | rfl <;> decide
    have hop2ws : pyIsSpace op2 = false := by
      rcases hm2 with rfl | rfl | rfl | rfl | rfl <;> decide
    have hop1nd : isDigitCh op1 = false ∧ op1 ≠ 'd' := by
      rcases hm1 with rfl | rfl | rfl | rfl | rfl <;> exact ⟨by decide, by decide⟩
    have hop2nd : isDigitCh op2 = false ∧ op2 ≠ 'd' := by
      rcases hm2 with rfl | rfl | rfl | rfl | rfl <;> exact ⟨by decide, by decide⟩
    set t := natDigits a ++ op1 :: (natDigits b ++ op2 :: natDigits c) with ht
    have hws : ∀ ch ∈ t, pyIsSpace ch = false := by
      intro ch hch
      rw [ht] at hch
      rcases List.mem_append.mp hch with h | h
      · exact digit_not_space (natDigits_all_digits a ch h)
      · rcases List.mem_cons.mp h with rfl | h
        · exact hop1ws
        · rcases List.mem_append.mp h with h | h
          · exact digit_not_space (natDigits_all_digits b ch h)
          · rcases List.mem_cons.mp h with rfl | h
            · exact hop2ws
            · exact digit_not_space (natDigits_all_digits c ch h)
    have h0 : t.drop 0 = natDigits a ++ (op1 :: (natDigits b ++ op2 :: natDigits c)) :=
      List.drop_zero t
    have hq1 : t.drop ((natDigits a).length) =
        op1 :: (natDigits b ++ op2 :: natDigits c) := by
      have := drop_of_append h0
      simpa using this
    have hp1 : t.drop ((natDigits a).length + 1) =
        natDigits b ++ op2 :: natDigits c := drop_cons_succ hq1
    have hq2 : t.drop ((natDigits a).length + 1 + (natDigits b).length) =
        op2 :: natDigits c := drop_of_append hp1
    have hp2 : t.drop ((natDigits a).length + 1 + (natDigits b).length + 1) =
        natDigits c := drop_cons_succ hq2
    have hopA : ∀ x : Nat, parserAccept (x + 2) .operatorK ⟨t, 0⟩ =
        .ok (some (.roller_constant (a : Int)), ⟨t, (natDigits a).length⟩) := by
      intro x
      have := parser_operator_const hws x h0 ha (by
        intro ch hch
        simp only [List.head?_cons, Option.some.injEq] at hch
        subst hch
        exact hop1nd)
      simpa using this
    have hopB : ∀ x : Nat,
        parserAccept (x + 2) .operatorK ⟨t, (natDigits a).length + 1⟩ =
        .ok (some (.roller_constant (b : Int)),
          ⟨t, (natDigits a).length + 1 + (natDigits b).length⟩) := by
      intro x
      exact parser_operator_const hws x hp1 hb (by
        intro ch hch
        simp only [List.head?_cons, Option.some.injEq] at hch
        subst hch
        exact hop2nd)
    have hrollC : ∀ x : Nat, parserAccept (x + 3) .rollK
        ⟨t, (natDigits a).length + 1 + (natDigits b).length + 1⟩ =
        .ok (some (.roller_constant (c : Int)), ⟨t, t.length⟩) := by
      intro x
      exact parser_roll_const_end hws x hp2 hc
    have hmid : ∀ x : Nat,
        parserAccept (x + 4) .rollK ⟨t, (natDigits a).length + 1⟩ =
        .ok (some (.roller_binary_op (.roller_constant (b : Int))
          (.roller_constant (c : Int)) (tagOfChar op2)), ⟨t, t.length⟩) := by
      intro x
      have := parser_roll_bin hws (x + 3) (hopB (x + 1)) hq2 hm2 (hrollC x)
      simpa [mkBinary] using this
    have houter : ∀ x : Nat, parserAccept (x + 5) .rollK ⟨t, 0⟩ =
        .ok (some (.roller_binary_op (.roller_constant (a : Int))
          (.roller_binary_op (.roller_constant (b : Int))
            (.roller_constant (c : Int)) (tagOfChar op2))
          (tagOfChar op1)), ⟨t, t.length⟩) := by
      intro x
      have := parser_roll_bin hws (x + 4) (hopA (x + 2)) hq1 hm1 (hmid x)
      simpa [mkBinary] using this
    rw [mkCursor_id hws]
    apply expect_line_of_roll
    have hfuel : lineFuel t = (4 * t.length + 3) + 5 := by
      unfold lineFuel; omega
    rw [hfuel]
    exact houter (4 * t.length + 3)
  · rfl

/-- The rollback wrapper never manufactures a node: a successful node-carrying
result comes from the wrapped computation unchanged. -/
theorem wrapRollback_ok_some {c : cursor}
    {r : Except pyError (Option rollerNode × cursor)} {nd : rollerNode}
    {c1 : cursor} (h : wrapRollback c r = .ok (some nd, c1)) :
    r = .ok (some nd, c1) := by
  unfold wrapRollback at h
  split at h
  · exact absurd h (by simp)
  · exact h

/-- Nat positivity transfers to the integer cast. -/
theorem one_le_intCast {n : Nat} (h : 1 ≤ n) : (1 : Int) ≤ (n : Int) := by
  exact_mod_cast h

/-- Every node returned by a successful parser production is well-formed:
all integer literals it embeds are at least 1. -/
theorem parserAccept_good : ∀ (f : Nat) (kind : prodKind) (c : cursor)
    (nd : rollerNode) (c1 : cursor),
    parserAccept f kind c = .ok (some nd, c1) → GoodNode nd := by
  intro f
  induction f with
  | zero =>
    intro kind c nd c1 h
    exact absurd h (by simp [parserAccept])
  | succ f ih =>
    intro kind c nd c1 h
    cases kind with
    | valueK =>
      simp only [parserAccept] at h
      have h2 := wrapRollback_ok_some h
      split at h2
      · split at h2
        · exact absurd h2 (by simp)
        · rename_i roll c2 hroll
          split at h2
          · exact absurd h2 (by simp)
          · obtain ⟨hr, _⟩ := Prod.mk.injEq _ _ _ _ |>.mp (Except.ok.inj h2)
            subst hr
            exact ih .rollK _ nd c2 hroll
      · split at h2
        · exact absurd h2 (by simp)
        · rename_i ds c1' hscan
          split at h2
          · split at h2
            · exact absurd h2 (by simp)
            · rename_i ds2 c3 hexp
              obtain ⟨hr, _⟩ := Prod.mk.injEq _ _ _ _ |>.mp (Except.ok.inj h2)
              obtain rfl := Option.some.inj hr
              exact ⟨one_le_intCast (accept_int_regex_val_pos hscan),
                one_le_intCast (expect_int_regex_val_pos hexp)⟩
          · obtain ⟨hr, _⟩ := Prod.mk.injEq _ _ _ _ |>.mp (Except.ok.inj h2)
            obtain rfl := Option.some.inj hr
            trivial
    | operatorK =>
      simp only [parserAccept] at h
      have h2 := wrapRollback_ok_some h
      split at h2
      · exact absurd h2 (by simp)
      · -- max
        split at h2
        · exact absurd h2 (by simp)
        · exact absurd h2 (by simp)
        · rename_i roller c2 hval
          obtain ⟨hr, _⟩ := Prod.mk.injEq _ _ _ _ |>.mp (Except.ok.inj h2)
          obtain rfl := Option.some.inj hr
          exact ⟨ih .valueK _ _ _ hval, trivial⟩
      · split at h2
        · exact absurd h2 (by simp)
        · -- min
          split at h2
          · exact absurd h2 (by simp)
          · exact absurd h2 (by simp)
          · rename_i roller c2 hval
            obtain ⟨hr, _⟩ := Prod.mk.injEq _ _ _ _ |>.mp (Except.ok.inj h2)
            obtain rfl := Option.some.inj hr
            exact ⟨ih .valueK _ _ _ hval, trivial⟩
        · split at h2
          · exact absurd h2 (by simp)
          · -- sum
            split at h2
            · exact absurd h2 (by simp)
            · exact absurd h2 (by simp)
            · rename_i roller c2 hval
              obtain ⟨hr, _⟩ := Prod.mk.injEq _ _ _ _ |>.mp (Except.ok.inj h2)
              obtain rfl := Option.some.inj hr
              exact ⟨ih .valueK _ _ _ hval, trivial⟩
          · split at h2
            · exact absurd h2 (by simp)
            · -- top
              split at h2
              · exact absurd h2 (by simp)
              · rename_i countStr c2 hexp
                split at h2
                · exact absurd h2 (by simp)
                · exact absurd h2 (by simp)
                · rename_i roller c3 hval
                  obtain ⟨hr, _⟩ := Prod.mk.injEq _ _ _ _ |>.mp (Except.ok.inj h2)
                  obtain rfl := Option.some.inj hr
                  exact ⟨ih .valueK _ _ _ hval,
                    one_le_intCast (expect_int_regex_val_pos hexp)⟩
            · split at h2
              · exact absurd h2 (by simp)
              · -- bottom
                split at h2
                · exact absurd h2 (by simp)
                · rename_i countStr c2 hexp
                  split at h2
                  · exact absurd h2 (by simp)
                  · exact absurd h2 (by simp)
                  · rename_i roller c3 hval
                    obtain ⟨hr, _⟩ := Prod.mk.injEq _ _ _ _ |>.mp (Except.ok.inj h2)
                    obtain rfl := Option.some.inj hr
                    exact ⟨ih .valueK _ _ _ hval,
                      one_le_intCast (expect_int_regex_val_pos hexp)⟩
              · split at h2
                · exact absurd h2 (by simp)
                · -- count
                  split at h2
                  · exact absurd h2 (by simp)
                  · rename_i countStr c2 hexp
                    split at h2
                    · exact absurd h2 (by simp)
                    · exact absurd h2 (by simp)
                    · rename_i roller c3 hval
                      obtain ⟨hr, _⟩ := Prod.mk.injEq _ _ _ _ |>.mp (Except.ok.inj h2)
                      obtain rfl := Option.some.inj hr
                      exact ⟨ih .valueK _ _ _ hval, trivial⟩
                · -- fall through to value
                  exact ih .valueK _ _ _ h2
    | rollK =>
      simp only [parserAccept] at h
      have h2 := wrapRollback_ok_some h
      split at h2
      · exact absurd h2 (by simp)
      · rename_i op1 c1' hopeq
        split at h2
        · -- plus
          split at h2
          · exact absurd h2 (by simp)
          · rename_i op2 c3 hinner
            split at hinner
            · exact absurd hinner (by simp)
            · exact absurd hinner (by simp)
            · rename_i nd2 c3' hin
              obtain ⟨hv2, _⟩ :=
                Prod.mk.injEq _ _ _ _ |>.mp (Except.ok.inj hinner)
              subst hv2
              obtain ⟨hr, _⟩ := Prod.mk.injEq _ _ _ _ |>.mp (Except.ok.inj h2)
              obtain rfl := Option.some.inj hr
              cases op1 with
              | some l =>
                exact ⟨ih .operatorK _ _ _ hopeq, ih .rollK _ _ _ hin⟩
              | none => exact ih .rollK _ nd2 _ hin
        · split at h2
          · -- minus
            split at h2
            · exact absurd h2 (by simp)
            · rename_i op2 c3 hinner
              split at hinner
              · exact absurd hinner (by simp)
              · exact absurd hinner (by simp)
              · rename_i nd2 c3' hin
                obtain ⟨hv2, _⟩ :=
                  Prod.mk.injEq _ _ _ _ |>.mp (Except.ok.inj hinner)
                subst hv2
                obtain ⟨hr, _⟩ := Prod.mk.injEq _ _ _ _ |>.mp (Except.ok.inj h2)
                obtain rfl := Option.some.inj hr
                cases op1 with
                | some l =>
                  exact ⟨ih .operatorK _ _ _ hopeq, ih .rollK _ _ _ hin⟩
                | none => exact ih .rollK _ nd2 _ hin
          · split at h2
            · -- star
              split at h2
              · exact absurd h2 (by simp)
              · rename_i op2 c3 hinner
                split at hinner
                · exact absurd hinner (by simp)
                · exact absurd hinner (by simp)
                · rename_i nd2 c3' hin
                  obtain ⟨hv2, _⟩ :=
                    Prod.mk.injEq _ _ _ _ |>.mp (Except.ok.inj hinner)
                  subst hv2
                  obtain ⟨hr, _⟩ := Prod.mk.injEq _ _ _ _ |>.mp (Except.ok.inj h2)
                  obtain rfl := Option.some.inj hr
                  cases op1 with
                  | some l =>
                    exact ⟨ih .operatorK _ _ _ hopeq, ih .rollK _ _ _ hin⟩
                  | none => exact ih .rollK _ nd2 _ hin
            · split at h2
              · -- slash
                split at h2
                · exact absurd h2 (by simp)
                · rename_i op2 c3 hinner
                  split at hinner
                  · exact absurd hinner (by simp)
                  · exact absurd hinner (by simp)
                  · rename_i nd2 c3' hin
                    obtain ⟨hv2, _⟩ :=
                      Prod.mk.injEq _ _ _ _ |>.mp (Except.ok.inj hinner)
                    subst hv2
                    obtain ⟨hr, _⟩ := Prod.mk.injEq _ _ _ _ |>.mp (Except.ok.inj h2)
                    obtain rfl := Option.some.inj hr
                    cases op1 with
                    | some l =>
                      exact ⟨ih .operatorK _ _ _ hopeq, ih .rollK _ _ _ hin⟩
                    | none => exact ih .rollK _ nd2 _ hin
              · split at h2
                · -- comma
                  split at h2
                  · exact absurd h2 (by simp)
                  · rename_i op2 c3 hinner
                    split at hinner
                    · exact absurd hinner (by simp)
                    · exact absurd hinner (by simp)
                    · rename_i nd2 c3' hin
                      obtain ⟨hv2, _⟩ :=
                        Prod.mk.injEq _ _ _ _ |>.mp (Except.ok.inj hinner)
                      subst hv2
                      obtain ⟨hr, _⟩ := Prod.mk.injEq _ _ _ _ |>.mp (Except.ok.inj h2)
                      obtain rfl := Option.some.inj hr
                      cases op1 with
                      | some l =>
                        exact ⟨ih .operatorK _ _ _ hopeq, ih .rollK _ _ _ hin⟩
                      | none => exact ih .rollK _ nd2 _ hin
                · -- no binary operator: return op1
                  obtain ⟨hr, _⟩ :=
                    Prod.mk.injEq _ _ _ _ |>.mp (Except.ok.inj h2)
                  subst hr
                  exact ih .operatorK _ _ _ hopeq

/-- A well-formed unary operator applied to a nonempty value list yields a
nonempty value list. -/
theorem applyUOp_ne_nil {op : uOp} {s res : List Int} (hop : GoodUOp op)
    (hs : s ≠ []) (h : applyUOp op s = .ok res) : res ≠ [] := by
  cases op with
  | umax =>
    match s, hs with
    | [x], _ => simp only [applyUOp] at h; obtain rfl := Except.ok.inj h; simp
    | x :: y :: t, _ =>
      simp only [applyUOp] at h; obtain rfl := Except.ok.inj h; simp
  | umin =>
    match s, hs with
    | [x], _ => simp only [applyUOp] at h; obtain rfl := Except.ok.inj h; simp
    | x :: y :: t, _ =>
      simp only [applyUOp] at h; obtain rfl := Except.ok.inj h; simp
  | usum => simp only [applyUOp] at h; obtain rfl := Except.ok.inj h; simp
  | ucount n => simp only [applyUOp] at h; obtain rfl := Except.ok.inj h; simp
  | utop n =>
    simp only [applyUOp] at h
    obtain rfl := Except.ok.inj h
    unfold GoodUOp at hop
    unfold pySliceFromNeg
    rw [if_neg (by omega)]
    have hlen : 1 ≤ s.length := List.length_pos.mpr hs
    have hn : 1 ≤ n.toNat := by omega
    apply List.ne_nil_of_length_pos
    rw [List.length_drop]
    omega
  | ubottom n =>
    simp only [applyUOp] at h
    obtain rfl := Except.ok.inj h
    unfold GoodUOp at hop
    unfold pySliceTo
    rw [if_pos (by omega)]
    have hlen : 1 ≤ s.length := List.length_pos.mpr hs
    have hn : 1 ≤ n.toNat := by omega
    apply List.ne_nil_of_length_pos
    rw [List.length_take]
    omega

/-- A binary operator applied to nonempty value lists yields a nonempty value
list. -/
theorem applyBOp_ne_nil {op : bOp} {l r res : List Int} (hl : l ≠ [])
    (_hr : r ≠ []) (h : applyBOp op l r = .ok res) : res ≠ [] := by
  cases op with
  | bSum => obtain rfl := Except.ok.inj h; simp
  | bSubtract => obtain rfl := Except.ok.inj h; simp
  | bMultiply => obtain rfl := Except.ok.inj h; simp
  | bDivide =>
    simp only [applyBOp] at h
    split at h
    · exact absurd h (by simp)
    · obtain rfl := Except.ok.inj h; simp
  | bConcat =>
    obtain rfl := Except.ok.inj h
    apply List.ne_nil_of_length_pos
    unfold pySorted
    rw [(List.perm_insertionSort _ _).length_eq, List.length_append]
    have := List.length_pos.mpr hl
    omega

/-- Evaluating a well-formed node yields an audit tree in which every value
list (root and descendants) is nonempty. -/
theorem rollWith_good_nonempty : ∀ (nd : rollerNode), GoodNode nd →
    ∀ (rng : rngT) (k : Nat) (res : roll_result) (k1 : Nat),
    nd.rollWith rng k = .ok (res, k1) → AllValues (fun v => v ≠ []) res := by
  intro nd
  induction nd with
  | roller_constant c =>
    intro _ rng k res k1 h
    simp only [rollerNode.rollWith] at h
    obtain ⟨rfl, _⟩ := Prod.mk.injEq _ _ _ _ |>.mp (Except.ok.inj h)
    exact AllValues.mk _ _ _ (by simp) (by intro r hr; cases hr)
  | roller_die cnt sides =>
    intro hg rng k res k1 h
    simp only [rollerNode.rollWith] at h
    obtain ⟨rfl, _⟩ := Prod.mk.injEq _ _ _ _ |>.mp (Except.ok.inj h)
    refine AllValues.mk _ _ _ ?_ (by intro r hr; cases hr)
    apply List.ne_nil_of_length_pos
    unfold pySorted
    rw [(List.perm_insertionSort _ _).length_eq, List.length_map,
      List.length_range]
    have := hg.1
    omega
  | roller_unary_operator inner op ih =>
    intro hg rng k res k1 h
    simp only [rollerNode.rollWith] at h
    split at h
    · exact absurd h (by simp)
    · rename_i r k2 hinner
      split at h
      · exact absurd h (by simp)
      · rename_i resv hop
        obtain ⟨rfl, _⟩ := Prod.mk.injEq _ _ _ _ |>.mp (Except.ok.inj h)
        have hrAll := ih hg.1 rng k r k2 hinner
        refine AllValues.mk _ _ _ ?_ ?_
        · exact applyUOp_ne_nil hg.2 hrAll.root hop
        · intro r2 hr2
          rcases List.mem_singleton.mp hr2 with rfl
          exact hrAll
  | roller_binary_op lhs rhs op ihl ihr =>
    intro hg rng k res k1 h
    simp only [rollerNode.rollWith] at h
    split at h
    · exact absurd h (by simp)
    · rename_i lr k2 hleft
      split at h
      · exact absurd h (by simp)
      · rename_i rr k3 hright
        split at h
        · exact absurd h (by simp)
        · rename_i resv hop
          obtain ⟨rfl, _⟩ := Prod.mk.injEq _ _ _ _ |>.mp (Except.ok.inj h)
          have hlAll := ihl hg.1 rng k lr k2 hleft
          have hrAll := ihr hg.2 rng k2 rr k3 hright
          refine AllValues.mk _ _ _ ?_ ?_
          · exact applyBOp_ne_nil hlAll.root hrAll.root hop
          · intro r2 hr2
            rcases List.mem_cons.mp hr2 with rfl | hr2
            · exact hlAll
            · rcases List.mem_singleton.mp hr2 with rfl
              exact hrAll
  | roller_binary_op_nolhs rhs op ih =>
    intro _ rng k res k1 h
    exact absurd h (by simp [rollerNode.rollWith])

/-- Any unary operator applied to a sorted value list yields a sorted value
list. -/
theorem applyUOp_sorted {op : uOp} {s res : List Int}
    (hs : s.Sorted (· ≤ ·)) (h : applyUOp op s = .ok res) :
    res.Sorted (· ≤ ·) := by
  have hp : List.Pairwise (· ≤ ·) s := hs
  cases op with
  | umax =>
    match s with
    | [] => exact absurd h (by simp [applyUOp])
    | [x] =>
      simp only [applyUOp] at h
      obtain rfl := Except.ok.inj h
      exact List.sorted_singleton _
    | x :: y :: t =>
      simp only [applyUOp] at h
      obtain rfl := Except.ok.inj h
      exact List.sorted_singleton _
  | umin =>
    match s with
    | [] => exact absurd h (by simp [applyUOp])
    | [x] =>
      simp only [applyUOp] at h
      obtain rfl := Except.ok.inj h
      exact List.sorted_singleton _
    | x :: y :: t =>
      simp only [applyUOp] at h
      obtain rfl := Except.ok.inj h
      exact List.sorted_singleton _
  | usum =>
    obtain rfl := Except.ok.inj h
    exact List.sorted_singleton _
  | ucount n =>
    obtain rfl := Except.ok.inj h
    exact List.sorted_singleton _
  | utop n =>
    obtain rfl := Except.ok.inj h
    unfold pySliceFromNeg
    split
    · exact hp.sublist (List.drop_sublist _ _)
    · exact hp.sublist (List.drop_sublist _ _)
  | ubottom n =>
    obtain rfl := Except.ok.inj h
    unfold pySliceTo
    split
    · exact hp.sublist (List.take_sublist _ _)
    · exact hp.sublist (List.take_sublist _ _)

/-- Any binary operator applied to value lists yields a sorted value list. -/
theorem applyBOp_sorted {op : bOp} {l r res : List Int}
    (h : applyBOp op l r = .ok res) : res.Sorted (· ≤ ·) := by
  cases op with
  | bSum => obtain rfl := Except.ok.inj h; exact List.sorted_singleton _
  | bSubtract => obtain rfl := Except.ok.inj h; exact List.sorted_singleton _
  | bMultiply => obtain rfl := Except.ok.inj h; exact List.sorted_singleton _
  | bDivide =>
    simp only [applyBOp] at h
    split at h
    · exact absurd h (by simp)
    · obtain rfl := Except.ok.inj h; exact List.sorted_singleton _
  | bConcat =>
    obtain rfl := Except.ok.inj h
    exact List.sorted_insertionSort _ _

/-- Evaluating any node yields an audit tree in which every value list (root
and descendants) is sorted ascending. -/
theorem rollWith_sorted : ∀ (nd : rollerNode) (rng : rngT) (k : Nat)
    (res : roll_result) (k1 : Nat), nd.rollWith rng k = .ok (res, k1) →
    AllValues (fun v => v.Sorted (· ≤ ·)) res := by
  intro nd
  induction nd with
  | roller_constant c =>
    intro rng k res k1 h
    simp only [rollerNode.rollWith] at h
    obtain ⟨rfl, _⟩ := Prod.mk.injEq _ _ _ _ |>.mp (Except.ok.inj h)
    exact AllValues.mk _ _ _ (List.sorted_singleton _) (by intro r hr; cases hr)
  | roller_die cnt sides =>
    intro rng k res k1 h
    simp only [rollerNode.rollWith] at h
    obtain ⟨rfl, _⟩ := Prod.mk.injEq _ _ _ _ |>.mp (Except.ok.inj h)
    exact AllValues.mk _ _ _ (List.sorted_insertionSort _ _)
      (by intro r hr; cases hr)
  | roller_unary_operator inner op ih =>
    intro rng k res k1 h
    simp only [rollerNode.rollWith] at h
    split at h
    · exact absurd h (by simp)
    · rename_i r k2 hinner
      split at h
      · exact absurd h (by simp)
      · rename_i resv hop
        obtain ⟨rfl, _⟩ := Prod.mk.injEq _ _ _ _ |>.mp (Except.ok.inj h)
        have hrAll := ih rng k r k2 hinner
        refine AllValues.mk _ _ _ (applyUOp_sorted hrAll.root hop) ?_
        intro r2 hr2
        rcases List.mem_singleton.mp hr2 with rfl
        exact hrAll
  | roller_binary_op lhs rhs op ihl ihr =>
    intro rng k res k1 h
    simp only [rollerNode.rollWith] at h
    split at h
    · exact absurd h (by simp)
    · rename_i lr k2 hleft
      split at h
      · exact absurd h (by simp)
      · rename_i rr k3 hright
        split at h
        · exact absurd h (by simp)
        · rename_i resv hop
          obtain ⟨rfl, _⟩ := Prod.mk.injEq _ _ _ _ |>.mp (Except.ok.inj h)
          have hlAll := ihl rng k lr k2 hleft
          have hrAll := ihr rng k2 rr k3 hright
          refine AllValues.mk _ _ _ (applyBOp_sorted hop) ?_
          intro r2 hr2
          rcases List.mem_cons.mp hr2 with rfl | hr2
          · exact hlAll
          · rcases List.mem_singleton.mp hr2 with rfl
            exact hrAll
  | roller_binary_op_nolhs rhs op ih =>
    intro rng k res k1 h
    exact absurd h (by simp [rollerNode.rollWith])

/-- A successful `expect_line` comes from a successful node-carrying
`accept_roll`. -/
theorem expect_line_inv {c : cursor} {nd : rollerNode}
    (h : expect_line c = .ok nd) :
    ∃ c1, parserAccept (lineFuel c.contents) .rollK c = .ok (some nd, c1) := by
  unfold expect_line at h
  split at h
  · exact absurd h (by simp)
  · rename_i nd1 c1 hexp
    unfold expect_roll at hexp
    split at hexp
    · exact absurd hexp (by simp)
    · exact absurd hexp (by simp)
    · rename_i nd2 c2 hacc
      obtain ⟨rfl, rfl⟩ := Prod.mk.injEq _ _ _ _ |>.mp (Except.ok.inj hexp)
      split at h
      · obtain rfl := Except.ok.inj h
        exact ⟨_, hacc⟩
      · split at h
        · obtain rfl := Except.ok.inj h
          exact ⟨_, hacc⟩
        · exact absurd h (by simp)

/-- The double-rounding stage never raises `ZeroDivisionError` (only
`OverflowError`). -/
theorem pyDivDouble_not_zeroDiv (A B : Nat) :
    pyDivDouble A B ≠ .error .zeroDivisionError := by
  intro h
  unfold pyDivDouble at h
  simp only [] at h
  split at h
  · exact absurd h (by simp)
  · split at h
    · split at h
      · exact absurd h (by simp)
      · exact absurd h (by simp)
    · split at h
      · exact absurd h (by simp)
      · exact absurd h (by simp)

/-- Embedded `int(a / b)` raises `ZeroDivisionError` exactly when the divisor
is zero. -/
theorem pyIntTrueDiv_zeroDiv_iff (a b : Int) :
    pyIntTrueDiv a b = .error .zeroDivisionError ↔ b = 0 := by
  constructor
  · intro h
    by_contra hb
    unfold pyIntTrueDiv at h
    rw [if_neg hb] at h
    by_cases ha : a = 0
    · rw [if_pos ha] at h
      exact absurd h (by simp)
    · rw [if_neg ha] at h
      split at h
      · rename_i e heq
        obtain rfl := Except.error.inj h
        exact pyDivDouble_not_zeroDiv _ _ heq
      · exact absurd h (by simp)
  · intro hb
    subst hb
    unfold pyIntTrueDiv
    simp

/-- C1: the claim is violated by the code.  The top-level parse of `"+5"`
does not raise a ParseError: `accept_roll` passes its `None` operator result
straight into `roller_binary_op`, and `expect_line` returns that tree, whose
binary root has a null left operand; evaluating it then faults with
`AttributeError` (`None.roll()`), not with a ParseError. -/
theorem C1_null_left_operand_escapes :
    parse_line "+5" =
      .ok (.roller_binary_op_nolhs (.roller_constant 5) .bSum) ∧
    (rollerNode.roller_binary_op_nolhs (.roller_constant 5) .bSum).rollWith
      rngLow 0 = .error .attributeError :=
  ⟨rfl, rfl⟩

/-- C2: the claim is violated by the code.  On the input `"max"` the keyword
`max` matches the text exactly up to end of input, but the follow-character
check reads `contents[end_pos]` with `end_pos = len(contents)` and raises
`IndexError` instead of succeeding; the fault escapes the whole parse. -/
theorem C2_accept_keyword_eof_faults :
    pySlice "max".data 0 (0 + ("max".data).length) = "max".data ∧
    accept_keyword (mkCursor "max".data) "max".data = .error .indexError ∧
    parse_line "max" = .error .indexError :=
  ⟨rfl, rfl, rfl⟩

set_option maxRecDepth 40000 in
/-- C3: the claim is violated by the code.  Divide computes
`int(sum(l) / sum(r))` with Python float true division, which rounds the
quotient to binary64 before truncating: evaluating the parse of
`"10000000000000001/1"` yields `[10000000000000000]`, not the exact
truncating integer division `10000000000000001`. -/
theorem C3_divide_loses_precision :
    parse_line "10000000000000001/1" =
      .ok (.roller_binary_op (.roller_constant 10000000000000001)
        (.roller_constant 1) .bDivide) ∧
    evalRootValues "10000000000000001/1" rngLow =
      .ok [10000000000000000] ∧
    Int.tdiv (pySum [(10000000000000001 : Int)]) (pySum [(1 : Int)]) =
      10000000000000001 ∧
    (10000000000000000 : Int) ≠ 10000000000000001 :=
  ⟨rfl, rfl, by decide, by decide⟩

/-- C4 counterexample: the claim's concrete instance is false — `"5/0"` does
not fail with DivisionByZero, because `0` is not an integer literal
(`[1-9][0-9]*`), so the parse itself fails with a positioned ParseError
(`expected a roll` at offset 2) and nothing is ever evaluated. -/
theorem C4_five_div_zero_is_parse_error :
    parse_line "5/0" =
      .error (.parserError "5/0".data "expected a roll".data 2) :=
  rfl

/-- C4 (amended): when both operands of a Divide node evaluate successfully,
evaluating the node fails with DivisionByZero exactly when the right
operand's values sum to zero (and then no value is produced); the literal
`"5/0"` is a syntax error, but `"5/(1-1)"` parses and its evaluation fails
with DivisionByZero. -/
theorem C4_divide_zero_iff :
    (∀ (rng : rngT) (lhs rhs : rollerNode) (k k1 k2 : Nat)
      (lr rr : roll_result),
      lhs.rollWith rng k = .ok (lr, k1) →
      rhs.rollWith rng k1 = .ok (rr, k2) →
      (((rollerNode.roller_binary_op lhs rhs .bDivide).rollWith rng k =
          .error .zeroDivisionError) ↔ pySum rr.values = 0)) ∧
    parse_line "5/(1-1)" =
      .ok (.roller_binary_op (.roller_constant 5)
        (.roller_binary_op (.roller_constant 1) (.roller_constant 1)
          .bSubtract) .bDivide) ∧
    evalRootValues "5/(1-1)" rngLow = .error .zeroDivisionError := by
  refine ⟨?_, rfl, rfl⟩
  intro rng lhs rhs k k1 k2 lr rr hl hr
  have hbody : (rollerNode.roller_binary_op lhs rhs .bDivide).rollWith rng k =
      match applyBOp .bDivide lr.values rr.values with
      | .error e => .error e
      | .ok res => .ok (.mk res (bOpTitle .bDivide) [lr, rr], k2) := by
    simp only [rollerNode.rollWith, hl, hr]
  rw [hbody]
  simp only [applyBOp]
  rcases hdiv : pyIntTrueDiv (pySum lr.values) (pySum rr.values) with e | q
  · constructor
    · intro h
      have he : e = .zeroDivisionError := by
        rcases e <;> simp_all
      subst he
      exact (pyIntTrueDiv_zeroDiv_iff _ _).mp hdiv
    · intro h
      have := (pyIntTrueDiv_zeroDiv_iff (pySum lr.values)
        (pySum rr.values)).mpr h
      rw [hdiv] at this
      obtain rfl := Except.error.inj this
      rfl
  · constructor
    · intro h
      exact absurd h (by simp)
    · intro h
      have := (pyIntTrueDiv_zeroDiv_iff (pySum lr.values)
        (pySum rr.values)).mpr h
      rw [hdiv] at this
      exact absurd this (by simp)

/-- C4 witness: instantiating the amended statement at a Divide node whose
right operand evaluates to `[0]`. -/
theorem C4_divide_zero_iff_witness :
    (rollerNode.roller_constant 5).rollWith rngLow 0 =
      .ok (.mk [5] "const".data [], 0) ∧
    (rollerNode.roller_constant 0).rollWith rngLow 0 =
      .ok (.mk [0] "const".data [], 0) ∧
    (((rollerNode.roller_binary_op (.roller_constant 5) (.roller_constant 0)
        .bDivide).rollWith rngLow 0 = .error .zeroDivisionError) ↔
      pySum (roll_result.mk [0] "const".data []).values = 0) :=
  ⟨rfl, rfl, C4_divide_zero_iff.1 rngLow _ _ 0 0 0 _ _ rfl rfl⟩

/-- C5 witness: the general right-associativity statement instantiated at
`10 - 5 - 2`. -/
theorem C5_right_associative_witness :
    (1 ≤ 10 ∧ 1 ≤ 5 ∧ 1 ≤ 2) ∧
    expect_line (mkCursor
        (natDigits 10 ++ '-' :: (natDigits 5 ++ '-' :: natDigits 2))) =
      .ok (.roller_binary_op (.roller_constant 10)
        (.roller_binary_op (.roller_constant 5) (.roller_constant 2)
          (tagOfChar '-')) (tagOfChar '-')) :=
  ⟨⟨by decide, by decide, by decide⟩,
    C5_right_associative.1 10 5 2 '-' '-' (by decide) (by decide) (by decide)
      (by decide) (by decide)⟩

/-- C6 witness: the dice statement instantiated at `2d6` with the low-sample
randomness source. -/
theorem C6_dice_parse_eval_witness :
    (1 ≤ 2 ∧ 1 ≤ 6 ∧
      (∀ k, k < 2 → 1 ≤ rngLow k 1 (6 : Int) ∧ rngLow k 1 (6 : Int) ≤ (6 : Int))) ∧
    expect_line (mkCursor (natDigits 2 ++ 'd' :: natDigits 6)) =
      .ok (.roller_die (2 : Int) (6 : Int)) :=
  ⟨⟨by decide, by decide, by decide⟩,
    (C6_dice_parse_eval 2 6 rngLow (by decide) (by decide) (by decide)).1⟩

/-- C7: for every sorted operand sequence and parsed N at least 1, `top N`
returns the last N elements of the ascending-sorted version of the sequence,
preserving ascending order, and returns the whole sequence when N exceeds its
length; concretely, evaluating `"top 2 (1,2,3,4)"` yields `[3,4]`.  (Operand
sequences arising in evaluation are always sorted; that invariant is C10.) -/
theorem C7_top_slice :
    (∀ (s : List Int) (n : Int), 1 ≤ n → s.Sorted (· ≤ ·) →
      applyUOp (.utop n) s = .ok ((pySorted s).drop (s.length - n.toNat)) ∧
      List.Sorted (· ≤ ·) (pySliceFromNeg n s) ∧
      ((s.length : Int) ≤ n → applyUOp (.utop n) s = .ok s)) ∧
    parse_line "top 2 (1,2,3,4)" =
      .ok (.roller_unary_operator
        (.roller_binary_op (.roller_constant 1)
          (.roller_binary_op (.roller_constant 2)
            (.roller_binary_op (.roller_constant 3) (.roller_constant 4)
              .bConcat) .bConcat) .bConcat)
        (.utop 2)) ∧
    evalRootValues "top 2 (1,2,3,4)" rngLow = .ok [3, 4] := by
  refine ⟨?_, rfl, rfl⟩
  intro s n hn hs
  have hp : List.Pairwise (· ≤ ·) s := hs
  refine ⟨?_, ?_, ?_⟩
  · simp only [applyUOp, pySliceFromNeg, if_neg (show ¬n ≤ 0 by omega)]
    unfold pySorted
    rw [hs.insertionSort_eq]
  · unfold pySliceFromNeg
    split
    · exact hp.sublist (List.drop_sublist _ _)
    · exact hp.sublist (List.drop_sublist _ _)
  · intro hlen
    simp only [applyUOp, pySliceFromNeg, if_neg (show ¬n ≤ 0 by omega)]
    have h0 : s.length - n.toNat = 0 := by omega
    rw [h0]
    simp

/-- C7 witness: the slice statement instantiated at the sorted sequence
`[1, 2, 3]` with N = 2. -/
theorem C7_top_slice_witness :
    ((1 : Int) ≤ 2 ∧ List.Sorted (· ≤ ·) [(1 : Int), 2, 3]) ∧
    (applyUOp (.utop 2) [(1 : Int), 2, 3] =
        .ok ((pySorted [(1 : Int), 2, 3]).drop
          ([(1 : Int), 2, 3].length - (2 : Int).toNat)) ∧
      List.Sorted (· ≤ ·) (pySliceFromNeg 2 [(1 : Int), 2, 3]) ∧
      (([(1 : Int), 2, 3].length : Int) ≤ 2 →
        applyUOp (.utop 2) [(1 : Int), 2, 3] = .ok [(1 : Int), 2, 3])) :=
  ⟨⟨by decide, by decide⟩,
    C7_top_slice.1 [(1 : Int), 2, 3] 2 (by decide) (by decide)⟩

/-- C8 counterexample: the claim's iff is false as stated.  On the input
`"sum"` with keyword `sum` the text at the current position equals the
keyword and there is no immediately following character, so the claim says
the call succeeds; the code instead raises `IndexError`. -/
theorem C8_keyword_flush_eof_counterexample :
    pySlice "sum".data 0 (0 + ("sum".data).length) = "sum".data ∧
    ("sum".data).get? (0 + ("sum".data).length) = none ∧
    accept_keyword (mkCursor "sum".data) "sum".data = .error .indexError :=
  ⟨rfl, rfl, rfl⟩

/-- C8 (amended): when matching the keyword stops strictly before end of
input, `accept_keyword` succeeds iff the text at the current position equals
the keyword and the immediately following character is not a letter, digit
or underscore (when the match is flush with end of input the code instead
raises an out-of-bounds `IndexError`); consequently parsing the line
`"maximum"` is a syntax error: no keyword matches (`max` is followed by the
identifier character `i`), and value parsing fails on non-numeric input. -/
theorem C8_keyword_boundary :
    (∀ (t kw : List Char) (p : Nat), p + kw.length < t.length →
      ((∃ c1, accept_keyword ⟨t, p⟩ kw = .ok (true, c1)) ↔
        (pySlice t p (p + kw.length) = kw ∧
          ∀ ch, t.get? (p + kw.length) = some ch → isIdentChar ch = false))) ∧
    parse_line "maximum" =
      .error (.parserError "maximum".data "expected a roll".data 0) := by
  refine ⟨?_, rfl⟩
  intro t kw p hlt
  unfold accept_keyword
  by_cases hsl : pySlice t p (p + kw.length) = kw
  · rw [if_pos hsl]
    rcases hg : t.get? (p + kw.length) with _ | ch
    · rw [List.get?_eq_none] at hg
      omega
    · dsimp only
      by_cases hid : isIdentChar ch = true
      · rw [if_pos hid]
        constructor
        · intro ⟨c1, hc1⟩
          exact absurd hc1 (by simp)
        · intro ⟨_, hch⟩
          rw [hch ch rfl] at hid
          exact absurd hid (by simp)
      · rw [if_neg hid]
        constructor
        · intro _
          refine ⟨hsl, ?_⟩
          intro ch2 hch2
          obtain rfl := Option.some.inj hch2
          simpa using hid
        · intro _
          exact ⟨_, rfl⟩
  · rw [if_neg hsl]
    constructor
    · intro ⟨c1, hc1⟩
      exact absurd hc1 (by simp)
    · intro ⟨h1, _⟩
      exact absurd h1 hsl

/-- C8 witness: the boundary statement instantiated at the text `maxi` and
keyword `max`, whose follow character `i` is an identifier character. -/
theorem C8_keyword_boundary_witness :
    (0 + ("max".data).length < ("maxi".data).length) ∧
    ((∃ c1, accept_keyword ⟨"maxi".data, 0⟩ "max".data = .ok (true, c1)) ↔
      (pySlice "maxi".data 0 (0 + ("max".data).length) = "max".data ∧
        ∀ ch, ("maxi".data).get? (0 + ("max".data).length) = some ch →
          isIdentChar ch = false)) :=
  ⟨by decide, C8_keyword_boundary.1 "maxi".data "max".data 0 (by decide)⟩

/-- C9: for every AST node produced by a successful parse, every roll result
that evaluation returns — at the root and at every descendant — has a
nonempty values sequence. -/
theorem C9_values_nonempty (s : String) (nd : rollerNode) (rng : rngT)
    (res : roll_result) (k : Nat) (hp : parse_line s = .ok nd)
    (hr : nd.rollWith rng 0 = .ok (res, k)) :
    AllValues (fun v => v ≠ []) res := by
  unfold parse_line at hp
  obtain ⟨c1, hacc⟩ := expect_line_inv hp
  exact rollWith_good_nonempty nd (parserAccept_good _ _ _ _ _ hacc) rng 0
    res k hr

/-- C9 witness: the nonemptiness statement instantiated at the parse and
evaluation of `3d4` under the low-sample randomness source. -/
theorem C9_values_nonempty_witness :
    parse_line "3d4" = .ok (.roller_die 3 4) ∧
    (rollerNode.roller_die 3 4).rollWith rngLow 0 =
      .ok (.mk [1, 1, 1] "3d4".data [], 3) ∧
    AllValues (fun v => v ≠ []) (.mk [1, 1, 1] "3d4".data []) :=
  ⟨rfl, rfl, C9_values_nonempty "3d4" _ rngLow _ 3 rfl rfl⟩

/-- C10: for every AST node produced by a successful parse, the values
sequence of every roll result produced by evaluation is sorted ascending
(dice and Concat sort explicitly; the other operators return singletons or
order-preserving slices of already-sorted sequences, so the invariant in
fact holds for evaluation of arbitrary nodes — the parse hypothesis is not
even needed). -/
theorem C10_values_sorted (s : String) (nd : rollerNode) (rng : rngT)
    (res : roll_result) (k : Nat) (_hp : parse_line s = .ok nd)
    (hr : nd.rollWith rng 0 = .ok (res, k)) :
    AllValues (fun v => v.Sorted (· ≤ ·)) res :=
  rollWith_sorted nd rng 0 res k hr

/-- C10 witness: the sortedness statement instantiated at the parse and
evaluation of `3,1`, whose Concat node must sort its concatenation. -/
theorem C10_values_sorted_witness :
    parse_line "3,1" =
      .ok (.roller_binary_op (.roller_constant 3) (.roller_constant 1)
        .bConcat) ∧
    (rollerNode.roller_binary_op (.roller_constant 3) (.roller_constant 1)
        .bConcat).rollWith rngLow 0 =
      .ok (.mk [1, 3] "Concat".data
        [.mk [3] "const".data [], .mk [1] "const".data []], 0) ∧
    AllValues (fun v => v.Sorted (· ≤ ·))
      (.mk [1, 3] "Concat".data
        [.mk [3] "const".data [], .mk [1] "const".data []]) :=
  ⟨rfl, rfl, C10_values_sorted "3,1" _ rngLow _ 0 rfl rfl⟩
